import Mathlib

/-!
# Verification of the collaborative text CRDT (package `crdt`, file `crdt/woot.go`)

The Go package keeps a replica as a slice of characters bracketed by the two
sentinels `start` and `end`.  Methods with a pointer receiver mutate the
document in place and return the receiver; here every such method returns the
document after the call together with the optional error.  The two package
level integers `SiteID` and `LocalClock` are carried in `Globals`.

Go `int` values that are positions are embedded as unbounded `Int`.  The only
arithmetic on them is `position - 1` and `position + 1`, compared against counts
and lengths of a slice.  In 64-bit arithmetic `position - 1` wraps only at the
smallest `int`, and there the wrapped value (the largest `int`) is a count of
visible characters no more than the unwrapped one is, so every comparison has the
same outcome in both readings.  The clock increment `LocalClock++` is embedded with
its 64-bit two's-complement wrap-around (`wrapInt`), which is observable.  So are the
values `Position - 1` and `Position - 2` of the client's inbound handler and the
shifted peer positions, which are stored or compared with the cursor.
-/

namespace crdt

/-! ## The code: `crdt/woot.go` and the operation case of `handleMsg` in `client/engine.go` -/

/-- The three error values of the package. -/
inductive CrdtError where
  | ErrPositionOutOfBounds
  | ErrEmptyWCharacter
  | ErrBoundsNotPresent
deriving DecidableEq, Repr

/-- The Go struct `Character`. -/
structure Character where
  ID : String
  Visible : Bool
  Value : String
  IDPrevious : String
  IDNext : String
deriving DecidableEq, Repr

/-- The Go struct `Document`. -/
structure Document where
  Characters : List Character
deriving DecidableEq, Repr

/-- The package level variables `SiteID` and `LocalClock`. -/
structure Globals where
  SiteID : Int
  LocalClock : Int
deriving DecidableEq, Repr

/-- The sentinel `CharacterStart`. -/
def CharacterStart : Character :=
  { ID := "start", Visible := false, Value := "", IDPrevious := "", IDNext := "end" }

/-- The sentinel `CharacterEnd`. -/
def CharacterEnd : Character :=
  { ID := "end", Visible := false, Value := "", IDPrevious := "start", IDNext := "" }

/-- The composite literal `Character{ID: "-1"}`: every other field has its zero value. -/
def CharacterNone : Character :=
  { ID := "-1", Visible := false, Value := "", IDPrevious := "", IDNext := "" }

/-- The zero value `Character{}`. -/
def CharacterZero : Character :=
  { ID := "", Visible := false, Value := "", IDPrevious := "", IDNext := "" }

/-- The function `New`. -/
def New : Document := { Characters := [CharacterStart, CharacterEnd] }

/-- The loop of `Content`: the values of the visible characters are appended to `value`. -/
def Content.loop : List Character → String → String
  | [], value => value
  | char :: rest, value => Content.loop rest (if char.Visible then value ++ char.Value else value)

/-- The function `Content`. -/
def Content (doc : Document) : String := Content.loop doc.Characters ""

/-- The loop of `IthVisible`, with the running `count`. -/
def IthVisible.loop (position : Int) : List Character → Int → Character
  | [], _ => CharacterNone
  | char :: rest, count =>
    if char.Visible then
      if count = position - 1 then char else IthVisible.loop position rest (count + 1)
    else IthVisible.loop position rest count

/-- The function `IthVisible`. -/
def IthVisible (doc : Document) (position : Int) : Character :=
  IthVisible.loop position doc.Characters 0

/-- The method `Length`. -/
def Document.Length (doc : Document) : Int := doc.Characters.length

/-- The loop of `Position`, with the running slice index `position`. -/
def Position.loop (charID : String) : List Character → Int → Int
  | [], _ => -1
  | char :: rest, position =>
    if charID = char.ID then position + 1 else Position.loop charID rest (position + 1)

/-- The method `Position`: the 1-based index of the first character with the id, or -1. -/
def Document.Position (doc : Document) (charID : String) : Int :=
  Position.loop charID doc.Characters 0

/-- The method `Contains`. -/
def Document.Contains (doc : Document) (charID : String) : Bool :=
  decide (doc.Position charID ≠ -1)

/-- The loop of `Find`. -/
def Find.loop (id : String) : List Character → Character
  | [] => CharacterNone
  | char :: rest => if char.ID = id then char else Find.loop id rest

/-- The method `Find`. -/
def Document.Find (doc : Document) (id : String) : Character := Find.loop id doc.Characters

/-- The Go slice expression `s[lo:hi]` for `lo ≤ hi ≤ len(s)`. -/
def slice (s : List Character) (lo hi : Nat) : List Character := (s.take hi).drop lo

/-- The method `Subseq`. -/
def Document.Subseq (doc : Document) (wcharacterStart wcharacterEnd : Character) :
    List Character × Option CrdtError :=
  let startPosition := doc.Position wcharacterStart.ID
  let endPosition := doc.Position wcharacterEnd.ID
  if startPosition = -1 ∨ endPosition = -1 then
    (doc.Characters, some CrdtError.ErrBoundsNotPresent)
  else if startPosition > endPosition then
    (doc.Characters, some CrdtError.ErrBoundsNotPresent)
  else if startPosition = endPosition then
    ([], none)
  else
    (slice doc.Characters startPosition.toNat (endPosition - 1).toNat, none)

/-- The assignment `doc.Characters[i].IDNext = id`. -/
def Character.withIDNext (id : String) (x : Character) : Character := { x with IDNext := id }

/-- The assignment `doc.Characters[i].IDPrevious = id`. -/
def Character.withIDPrevious (id : String) (x : Character) : Character :=
  { x with IDPrevious := id }

/-- The assignment `doc.Characters[i].Visible = false`. -/
def Character.tombstone (x : Character) : Character := { x with Visible := false }

/-- The three statements of `LocalInsert` that change the slice, for an index `p`
with `0 < p < len(l)`: the nested `append` builds `l[:p] ++ [char] ++ l[p:]`, then
`IDNext` of the element at `p-1` and `IDPrevious` of the element at `p+1` are set. -/
def spliceAt (l : List Character) (char : Character) (p : Nat) : List Character :=
  let spliced := l.take p ++ char :: l.drop p
  let withNext := List.modify (Character.withIDNext char.ID) (p - 1) spliced
  List.modify (Character.withIDPrevious char.ID) (p + 1) withNext

/-- The method `LocalInsert`: splice `char` in at slice index `position`, then
overwrite `IDNext` of the left neighbour and `IDPrevious` of the right neighbour. -/
def Document.LocalInsert (doc : Document) (char : Character) (position : Int) :
    Document × Option CrdtError :=
  if position ≤ 0 ∨ position ≥ doc.Length then
    (doc, some CrdtError.ErrPositionOutOfBounds)
  else if char.ID = "" then
    (doc, some CrdtError.ErrEmptyWCharacter)
  else
    ({ Characters := spliceAt doc.Characters char position.toNat }, none)

/-- The loop `for i < len(subsequence)-1 && subsequence[i].ID < char.ID { i++ }` of
`IntegrateInsert`.  The list argument is `subsequence[i:]`, so `i < len(subsequence)-1`
holds exactly when it has at least two elements.  The comparison of two strings is
the lexicographic comparison of their character lists (`String.lt_iff_toList_lt`). -/
def IntegrateInsert.walk (charID : String) : List Character → Nat → Nat
  | [], i => i
  | [_], i => i
  | s :: t :: rest, i =>
    if s.ID.toList < charID.toList then IntegrateInsert.walk charID (t :: rest) (i + 1) else i

/-- The method `IntegrateInsert`, with a bound on the depth of the recursion:
`none` means the bound was reached. -/
def Document.IntegrateInsertFuel :
    Nat → Document → Character → Character → Character → Option (Document × Option CrdtError)
  | 0, _, _, _, _ => none
  | fuel + 1, doc, char, charPrev, charNext =>
    match doc.Subseq charPrev charNext with
    | (_, some err) => some (doc, some err)
    | (subsequence, none) =>
      let position := doc.Position charNext.ID - 1
      if subsequence.length = 0 then
        some (doc.LocalInsert char position)
      else if subsequence.length = 1 then
        some (doc.LocalInsert char (position - 1))
      else
        let i := IntegrateInsert.walk char.ID (subsequence.drop 1) 1
        Document.IntegrateInsertFuel fuel doc char
          (subsequence.getD (i - 1) CharacterZero) (subsequence.getD i CharacterZero)

/-- The method `IntegrateInsert`.  Every recursive call lowers the position of
`charNext`, so a depth of one more than the number of stored characters is never
reached (`IntegrateInsert_total`). -/
def Document.IntegrateInsert (doc : Document) (char charPrev charNext : Character) :
    Document × Option CrdtError :=
  (doc.IntegrateInsertFuel (doc.Characters.length + 1) char charPrev charNext).getD
    (doc, some CrdtError.ErrBoundsNotPresent)

/-- Go `int` on a 64-bit platform: the two's-complement value of an integer. -/
def wrapInt (n : Int) : Int := (n + 2 ^ 63) % 2 ^ 64 - 2 ^ 63

/-- The call `fmt.Sprint` at an `int`: the decimal numeral, with a minus sign when negative. -/
def Sprint (n : Int) : String :=
  if n < 0 then "-" ++ Nat.repr n.natAbs else Nat.repr n.natAbs

/-- The method `GenerateInsert`: the globals after the call, the document after the
call and the error. -/
def Document.GenerateInsert (g : Globals) (doc : Document) (position : Int) (value : String) :
    Globals × Document × Option CrdtError :=
  let g1 : Globals := { g with LocalClock := wrapInt (g.LocalClock + 1) }
  let charPrev := IthVisible doc (position - 1)
  let charNext := IthVisible doc position
  let charPrev := if charPrev.ID = "-1" then doc.Find "start" else charPrev
  let charNext := if charNext.ID = "-1" then doc.Find "end" else charNext
  let char : Character :=
    { ID := Sprint g1.SiteID ++ Sprint g1.LocalClock
      Visible := true
      Value := value
      IDPrevious := charPrev.ID
      IDNext := charNext.ID }
  (g1, doc.IntegrateInsert char charPrev charNext)

/-- The method `IntegrateDelete`. -/
def Document.IntegrateDelete (doc : Document) (char : Character) : Document :=
  let position := doc.Position char.ID
  if position = -1 then doc
  else
    { Characters := List.modify Character.tombstone (position - 1).toNat doc.Characters }

/-- The method `GenerateDelete`. -/
def Document.GenerateDelete (doc : Document) (position : Int) : Document :=
  doc.IntegrateDelete (IthVisible doc position)

/-- What a call of `Insert` leaves behind and returns: the package variables and the
receiver after the call, the returned text and the returned error. -/
structure InsertResult where
  globals : Globals
  doc : Document
  text : String
  err : Option CrdtError
deriving DecidableEq, Repr

/-- The method `Insert`.  `GenerateInsert` returns the receiver itself, so on both
paths the text is the content of the receiver after the call. -/
def Document.Insert (g : Globals) (doc : Document) (position : Int) (value : String) :
    InsertResult :=
  match doc.GenerateInsert g position value with
  | (g1, newDoc, some err) => { globals := g1, doc := newDoc, text := Content newDoc, err := some err }
  | (g1, newDoc, none) => { globals := g1, doc := newDoc, text := Content newDoc, err := none }

/-- The method `Delete`: the document after the call and the returned text. -/
def Document.Delete (doc : Document) (position : Int) : Document × String :=
  let newDoc := doc.GenerateDelete position
  (newDoc, Content newDoc)

/-- Modelled from the spec: the struct `commons.Operation` is declared outside the
listed sources; its fields are those of the message schema, `type` ("insert" or
"delete"), `position` and `value`. -/
structure Operation where
  OpType : String
  Position : Int
  Value : String
deriving DecidableEq, Repr

/-- The effect of the default case of `handleMsg` on the package variables and the
document of the client: an "insert" operation calls `doc.Insert(position, value)` and
only logs the error, a "delete" operation calls `doc.Delete(position)`, any other
operation type changes nothing. -/
def handleOperation (g : Globals) (doc : Document) (op : Operation) : Globals × Document :=
  if op.OpType = "insert" then
    ((doc.Insert g op.Position op.Value).globals, (doc.Insert g op.Position op.Value).doc)
  else if op.OpType = "delete" then
    (g, (doc.Delete op.Position).1)
  else
    (g, doc)

/-! ## Vocabulary of the specification -/

/-- The fields of a character that `LocalInsert` never overwrites on a stored
character: id, visibility and value. -/
def Character.core (c : Character) : String × Bool × String := (c.ID, c.Visible, c.Value)

/-- The ids of the stored characters, in storage order. -/
def Document.ids (doc : Document) : List String := doc.Characters.map Character.ID

/-- The values of the visible characters, in storage order. -/
def VisibleValues (l : List Character) : List String :=
  (l.filter Character.Visible).map Character.Value

/-- The number of visible characters. -/
def VisibleLength (doc : Document) : Nat := (doc.Characters.filter Character.Visible).length

/-- A well-formed document: the first stored character has id `start`, the last has
id `end`, both are invisible, the ids are pairwise distinct and none is `-1`. -/
structure WellFormed (doc : Document) : Prop where
  first : doc.Characters.head?.map Character.ID = some "start" ∧
    doc.Characters.head?.map Character.Visible = some false
  last : doc.Characters.getLast?.map Character.ID = some "end" ∧
    doc.Characters.getLast?.map Character.Visible = some false
  distinct : doc.ids.Nodup
  noMinusOne : ∀ c ∈ doc.Characters, c.ID ≠ "-1"

/-- The index inside the subsequence `mid` before which `IntegrateInsert` splices the
character: 0 when `mid` has at most one element, the result of the walk otherwise. -/
def placeIndex (charID : String) (mid : List Character) : Nat :=
  if mid.length ≤ 1 then 0 else IntegrateInsert.walk charID (mid.drop 1) 1

/-- The left bound computed by `GenerateInsert`. -/
def prevBound (doc : Document) (position : Int) : Character :=
  if (IthVisible doc (position - 1)).ID = "-1" then doc.Find "start"
  else IthVisible doc (position - 1)

/-- The right bound computed by `GenerateInsert`. -/
def nextBound (doc : Document) (position : Int) : Character :=
  if (IthVisible doc position).ID = "-1" then doc.Find "end" else IthVisible doc position

/-- The character created by `GenerateInsert`. -/
def newCharacter (g : Globals) (doc : Document) (position : Int) (value : String) : Character :=
  { ID := Sprint g.SiteID ++ Sprint (wrapInt (g.LocalClock + 1))
    Visible := true
    Value := value
    IDPrevious := (prevBound doc position).ID
    IDNext := (nextBound doc position).ID }

/-- The document `New()` after the three calls `Insert(1, "A")`, `Insert(2, "B")`,
`Insert(3, "C")` with `SiteID = 1` and `LocalClock = 0` (`docABC_reached`). -/
def docABC : Document :=
  { Characters :=
      [{ ID := "start", Visible := false, Value := "", IDPrevious := "", IDNext := "11" },
       { ID := "11", Visible := true, Value := "A", IDPrevious := "start", IDNext := "12" },
       { ID := "12", Visible := true, Value := "B", IDPrevious := "11", IDNext := "13" },
       { ID := "13", Visible := true, Value := "C", IDPrevious := "12", IDNext := "end" },
       { ID := "end", Visible := false, Value := "", IDPrevious := "13", IDNext := "" }] }

/-- The character "X" generated by site 1 at clock 1 at the head of the empty document. -/
def charX : Character :=
  { ID := "11", Visible := true, Value := "X", IDPrevious := "start", IDNext := "end" }

/-- The character "Y" generated by site 2 at clock 1 at the head of the empty document. -/
def charY : Character :=
  { ID := "21", Visible := true, Value := "Y", IDPrevious := "start", IDNext := "end" }

/-- Replica A: `New()` integrates X, then Y, both with the bounds `start`, `end`. -/
def replicaA : Document :=
  ((New.IntegrateInsert charX CharacterStart CharacterEnd).1.IntegrateInsert
    charY CharacterStart CharacterEnd).1

/-- Replica B: `New()` integrates Y, then X, both with the bounds `start`, `end`. -/
def replicaB : Document :=
  ((New.IntegrateInsert charY CharacterStart CharacterEnd).1.IntegrateInsert
    charX CharacterStart CharacterEnd).1

/-- The id `fmt.Sprint(SiteID) + fmt.Sprint(LocalClock)` that `GenerateInsert` gives to
the character created at site `site` once the clock has the value `clock`. -/
def generatedID (site clock : Int) : String := Sprint site ++ Sprint clock

/-- The sentinels are in place: at least two stored characters, the first with id
`start`, the last with id `end`, both invisible with the empty value. -/
def SentinelsInPlace (doc : Document) : Prop :=
  2 ≤ doc.Characters.length ∧
  doc.Characters.head?.map Character.core = some ("start", false, "") ∧
  doc.Characters.getLast?.map Character.core = some ("end", false, "")

/-- A delete request for the character with id "12": only the id is read. -/
def deleteRequest12 : Character :=
  { ID := "12", Visible := false, Value := "", IDPrevious := "", IDNext := "" }

/-- The delete operation message with position `p`. -/
def deleteMessage (p : Int) : Operation := { OpType := "delete", Position := p, Value := "" }

/-- The insert operation message with position `p` and value `v`. -/
def insertMessage (p : Int) (v : String) : Operation :=
  { OpType := "insert", Position := p, Value := v }

/-- The edit an operation message describes on the visible text, given as the list
of visible values: an insert puts its value at its position, a delete removes the
value at its position when there is one. -/
def applyEdit (op : Operation) (text : List String) : List String :=
  if op.OpType = "insert" then
    text.take (op.Position - 1).toNat ++ op.Value :: text.drop (op.Position - 1).toNat
  else if op.OpType = "delete" then
    if 1 ≤ op.Position ∧ op.Position ≤ (text.length : Int) then
      text.eraseIdx (op.Position - 1).toNat
    else text
  else text

/-- The string a list of visible values spells: the values one after the other, as
the loop of `Content` appends them. -/
def joinValues (text : List String) : String :=
  text.foldl (fun a b => a ++ b) ""

/-- An insert message addresses a position between 1 and one more than the length
`n` of the visible text; any other message passes. -/
def InsertInRange (op : Operation) (n : Nat) : Prop :=
  op.OpType = "insert" → 1 ≤ op.Position ∧ op.Position ≤ (n : Int) + 1

/-- The Go index expression `s[i]` on the character slice: `none` is the run-time
panic "index out of range". -/
def indexAt (s : List Character) (i : Int) : Option Character :=
  if i < 0 then none else s[i.toNat]?

/-- The method `ElementAt`: `none` is a run-time panic. -/
def Document.ElementAt (doc : Document) (position : Int) :
    Option (Character × Option CrdtError) :=
  if position < 0 ∨ position ≥ doc.Length then
    some (CharacterZero, some CrdtError.ErrPositionOutOfBounds)
  else
    (indexAt doc.Characters position).map (fun c => (c, none))

/-- The method `Left`: `none` is a run-time panic. -/
def Document.Left (doc : Document) (charID : String) : Option String :=
  let i := doc.Position charID
  if i ≤ 0 then (indexAt doc.Characters i).map Character.ID
  else (indexAt doc.Characters (i - 1)).map Character.ID

/-- The method `Right`: `none` is a run-time panic. -/
def Document.Right (doc : Document) (charID : String) : Option String :=
  let i := doc.Position charID
  if i ≥ (doc.Characters.length : Int) - 1 then (indexAt doc.Characters (i - 1)).map Character.ID
  else (indexAt doc.Characters (i + 1)).map Character.ID

/-- Three stored characters with the ids "3", "5" and "7". -/
def mid357 : List Character :=
  [{ ID := "3", Visible := true, Value := "a", IDPrevious := "start", IDNext := "5" },
   { ID := "5", Visible := false, Value := "b", IDPrevious := "3", IDNext := "7" },
   { ID := "7", Visible := true, Value := "c", IDPrevious := "5", IDNext := "end" }]

/-- The document that stores `mid357` between the two sentinels. -/
def doc357 : Document := { Characters := CharacterStart :: mid357 ++ [CharacterEnd] }

/-- A character with the id "6". -/
def char6 : Character :=
  { ID := "6", Visible := true, Value := "x", IDPrevious := "start", IDNext := "end" }

/-- The bounds of the recursive call of `IntegrateInsert`, when the call with the
bounds `charPrev`, `charNext` makes one. -/
def IntegrateInsert.recursiveBounds (doc : Document) (char charPrev charNext : Character) :
    Option (Character × Character) :=
  match doc.Subseq charPrev charNext with
  | (_, some _) => none
  | (subsequence, none) =>
    if subsequence.length = 0 then none
    else if subsequence.length = 1 then none
    else
      let i := IntegrateInsert.walk char.ID (subsequence.drop 1) 1
      some (subsequence.getD (i - 1) CharacterZero, subsequence.getD i CharacterZero)

/-- A character of which only the id matters. -/
def charWithID (id : String) : Character :=
  { ID := id, Visible := false, Value := "", IDPrevious := "", IDNext := "" }

/-- A document without sentinels that stores the id "a" twice. -/
def docDuplicate : Document :=
  { Characters := [charWithID "a", charWithID "z1", charWithID "z2", charWithID "z3",
      charWithID "x", charWithID "a", charWithID "b", charWithID "y"] }

/-! ## The code: messages (`commons/message.go`) and the roster of the server (`server/main.go`) -/

/-- The type `uuid.UUID`, a 16-byte array, as the natural number it encodes. -/
abbrev UUID := Nat

/-- The Go struct `commons.Message`; the field `Type` is `MsgType` here. -/
structure Message where
  Username : String
  Text : String
  MsgType : String
  ID : UUID
  Operation : Operation
  Document : Document
deriving DecidableEq, Repr

/-- The constant `commons.DocSyncMessage`. -/
def DocSyncMessage : String := "docSync"

/-- The constant `commons.DocReqMessage`. -/
def DocReqMessage : String := "docReq"

/-- The constant `commons.SiteIDMessage`. -/
def SiteIDMessage : String := "SiteID"

/-- The constant `commons.JoinMessage`. -/
def JoinMessage : String := "join"

/-- The constant `commons.UsersMessage`. -/
def UsersMessage : String := "users"

/-- The zero value of `commons.Message`. -/
def MessageZero : Message :=
  { Username := "", Text := "", MsgType := "", ID := 0,
    Operation := { OpType := "", Position := 0, Value := "" },
    Document := { Characters := [] } }

/-- The Go struct `client` of the server, without its connection and its mutexes. -/
structure client where
  SiteID : String
  id : UUID
  Username : String
deriving DecidableEq, Repr

/-- The loop of `sendUsernames`: `users += client.Username + ","` for every client
read from the roster. -/
def sendUsernames.loop : List client → String → String
  | [], users => users
  | c :: rest, users => sendUsernames.loop rest (users ++ (c.Username ++ ","))

/-- The method `Clients.sendUsernames`: the message it puts on the sync stream, for
the clients in the order `getAll` delivers them. -/
def sendUsernames (roster : List client) : Message :=
  { MessageZero with Text := sendUsernames.loop roster "", MsgType := UsersMessage }

/-- The loop behind the library call `strings.Split(s, sep)` for a separator of one
character: `current` holds the characters of the piece being read, last first. -/
def stringsSplit.loop (sep : Char) : List Char → List Char → List String
  | [], current => [String.mk current.reverse]
  | c :: rest, current =>
    if c = sep then String.mk current.reverse :: stringsSplit.loop sep rest []
    else stringsSplit.loop sep rest (c :: current)

/-- The library call `strings.Split(s, sep)` for a separator of one character. -/
def stringsSplit (s : String) (sep : Char) : List String := stringsSplit.loop sep s.toList []

/-- The map lookup `c.list[id]` that the registry answers a `get` request with: `none`
is the nil pointer the lookup yields for an id that is not a key of the roster. -/
def Clients.get (list : List client) (id : UUID) : Option client :=
  list.find? (fun c => decide (c.id = id))

/-- What a call of `broadcastOne` does. -/
inductive BroadcastOutcome where
  /-- The run-time panic of `client.send` on the nil pointer (`c.writeMu` is read
  through `c`). -/
  | nilDereference
  /-- The message was written to the connection of the client. -/
  | sent (dst : UUID) (msg : Message)
  /-- The write failed and `c.delete(client.id)` was called. -/
  | deleted (dst : UUID)
deriving DecidableEq, Repr

/-- The method `Clients.broadcastOne`; `writeFails` tells for which client the write
on the connection returns an error. -/
def Clients.broadcastOne (list : List client) (writeFails : client → Bool) (msg : Message)
    (dst : UUID) : BroadcastOutcome :=
  match Clients.get list dst with
  | none => BroadcastOutcome.nilDereference
  | some c => if writeFails c then BroadcastOutcome.deleted c.id else BroadcastOutcome.sent c.id msg

/-! ## The code: the editor (`client/editor/editor.go`) and the engine of the client
(`client/engine.go`) -/

/-- The Go struct `editor.CursorColPos`; the colour, a `termbox.Attribute`, is the
number it encodes. -/
structure CursorColPos where
  Pos : Int
  Col : Nat
deriving DecidableEq, Repr

/-- The Go struct `editor.Editor`, without its status bar, its channels and its
mutexes.  `Text` is the slice of runes; the map `UsersPos` is the function that sends
a key to its entry. -/
structure Editor where
  Text : List Char
  Cursor : Int
  Width : Int
  Height : Int
  ColOff : Int
  RowOff : Int
  Username : String
  Users : List String
  UsersPos : String → Option CursorColPos
  ScrollEnabled : Bool
  IsConnected : Bool

/-- What the handlers of the client call outside the listed sources: the library
calls `runewidth.RuneWidth` and `strconv.Atoi` (the value it returns, which is 0 on a
syntax error and the nearest `int` on a range error, and whether it returns an error)
and the ten colours of the table `userColors`, whose values are constants of the terminal
library. -/
structure Externals where
  RuneWidth : Char → Int
  Atoi : String → Int × Bool
  userColors : List Nat

/-- The loop of `GetColorForUsername` over the sorted names, with the running index:
the index of the first name equal to `username`, and 0 when there is none. -/
def GetColorForUsername.loop (username : String) : List String → Nat → Nat
  | [], _ => 0
  | name :: rest, i => if name = username then i else GetColorForUsername.loop username rest (i + 1)

/-- The function `editor.GetColorForUsername`. -/
def GetColorForUsername (ext : Externals) (username : String) (usernames : List String) : Nat :=
  let sorted := List.insertionSort (fun a b => a.toList ≤ b.toList) usernames
  let idx := GetColorForUsername.loop username sorted 0
  ext.userColors.getD (idx % ext.userColors.length) 0

/-- The method `SetText`: the runes of the text. -/
def Editor.SetText (e : Editor) (text : String) : Editor := { e with Text := text.toList }

/-- The loop of `calcXY` over the runes before the index. -/
def calcXY.loop (ext : Externals) : List Char → Int → Int → Int × Int
  | [], x, y => (x, y)
  | r :: rest, x, y =>
    if r = '\n' then calcXY.loop ext rest 1 (y + 1)
    else calcXY.loop ext rest (x + ext.RuneWidth r) y

/-- The method `calcXY`. -/
def Editor.calcXY (ext : Externals) (e : Editor) (index : Int) : Int × Int :=
  if index < 0 then (1, 1)
  else
    let index := if index > (e.Text.length : Int) then (e.Text.length : Int) else index
    calcXY.loop ext (e.Text.take index.toNat) 1 1

/-- The scrolling of `MoveCursor` when `ScrollEnabled` is set: the four updates of
`RowOff` and `ColOff` for the screen position of the new cursor. -/
def Editor.scroll (ext : Externals) (e : Editor) (newCursor : Int) : Editor :=
  let cx := (e.calcXY ext newCursor).1
  let cy := (e.calcXY ext newCursor).2
  let rowStart := e.RowOff
  let rowEnd := e.RowOff + e.Height - 1
  let e1 := if cy ≤ rowStart then { e with RowOff := e.RowOff + (cy - rowStart - 1) } else e
  let e2 := if cy > rowEnd then { e1 with RowOff := e1.RowOff + (cy - rowEnd) } else e1
  let colStart := e2.ColOff
  let colEnd := e2.ColOff + e2.Width
  let e3 := if cx ≤ colStart then { e2 with ColOff := e2.ColOff + (cx - (colStart + 1)) } else e2
  if cx > colEnd then { e3 with ColOff := e3.ColOff + (cx - colEnd) } else e3

/-- The method call `MoveCursor(x, 0)`: with `y = 0` neither of the two vertical
branches `y > 0`, `y < 0` is taken. -/
def Editor.MoveCursorHorizontal (ext : Externals) (e : Editor) (x : Int) : Editor :=
  if e.Text.length = 0 ∧ e.Cursor = 0 then e
  else
    let newCursor := e.Cursor + x
    let e1 := if e.ScrollEnabled then e.scroll ext newCursor else e
    let newCursor := if newCursor > (e1.Text.length : Int) then (e1.Text.length : Int) else newCursor
    let newCursor := if newCursor < 0 then 0 else newCursor
    { e1 with Cursor := newCursor }

/-- A loop `for name, user := range e.UsersPos` of the engine: every entry of another
user than `except` whose position is above `bound` gets its position changed by
`delta`, keeping its colour. -/
def shiftUsersPos (m : String → Option CursorColPos) (except : String) (bound delta : Int) :
    String → Option CursorColPos :=
  fun name =>
    match m name with
    | some user =>
      if name ≠ except ∧ bound < user.Pos then some { Pos := wrapInt (user.Pos + delta), Col := user.Col }
      else some user
    | none => none

/-- The map assignment `e.UsersPos[key] = entry`. -/
def setUsersPos (m : String → Option CursorColPos) (key : String) (entry : CursorColPos) :
    String → Option CursorColPos :=
  fun name => if name = key then some entry else m name

/-- The state of a client: the package variables `doc` and `e` of the client and the
package variables of `crdt`. -/
structure ClientState where
  doc : Document
  globals : Globals
  e : Editor

/-- The function `handleMsg` of the client: the state after the call and the message
it writes on the connection, if any. -/
def handleMsg (ext : Externals) (msg : Message) (s : ClientState) : ClientState × Option Message :=
  if msg.MsgType = DocSyncMessage then
    ({ s with doc := msg.Document, e := s.e.SetText (Content msg.Document) }, none)
  else if msg.MsgType = DocReqMessage then
    (s, some { MessageZero with MsgType := DocSyncMessage, Document := s.doc, ID := msg.ID })
  else if msg.MsgType = SiteIDMessage then
    ({ s with globals := { s.globals with SiteID := (ext.Atoi msg.Text).1 } }, none)
  else if msg.MsgType = JoinMessage then
    (s, none)
  else if msg.MsgType = UsersMessage then
    ({ s with e := { s.e with Users := stringsSplit msg.Text ',' } }, none)
  else if msg.Operation.OpType = "insert" then
    let r := s.doc.Insert s.globals msg.Operation.Position msg.Operation.Value
    let e1 := s.e.SetText (Content r.doc)
    let e2 :=
      if wrapInt (msg.Operation.Position - 1) ≤ e1.Cursor then
        e1.MoveCursorHorizontal ext (msg.Operation.Value.utf8ByteSize : Int)
      else e1
    let color := GetColorForUsername ext msg.Username e2.Users
    let m1 := setUsersPos e2.UsersPos msg.Username
      { Pos := wrapInt (msg.Operation.Position - 1), Col := color }
    let m2 := shiftUsersPos m1 msg.Username msg.Operation.Position 1
    ({ doc := r.doc, globals := r.globals, e := { e2 with UsersPos := m2 } }, none)
  else if msg.Operation.OpType = "delete" then
    let d := (s.doc.Delete msg.Operation.Position).1
    let e1 := s.e.SetText (Content d)
    let e2 :=
      if wrapInt (msg.Operation.Position - 1) ≤ e1.Cursor then
        e1.MoveCursorHorizontal ext (-(msg.Operation.Value.utf8ByteSize : Int))
      else e1
    let color := GetColorForUsername ext msg.Username e2.Users
    let m1 := setUsersPos e2.UsersPos msg.Username
      { Pos := wrapInt (msg.Operation.Position - 2), Col := color }
    let m2 := shiftUsersPos m1 msg.Username msg.Operation.Position (-1)
    ({ s with doc := d, e := { e2 with UsersPos := m2 } }, none)
  else
    (s, none)

/-- The constant `OperationInsert`. -/
def OperationInsert : Nat := 0

/-- The constant `OperationDelete`. -/
def OperationDelete : Nat := 1

/-- The case `OperationInsert` of `performOperation` for the string `ch` of the typed
rune: the state after it and the message it builds. -/
def performOperation.insert (ext : Externals) (ch : String) (s : ClientState) :
    ClientState × Message :=
  let r := s.doc.Insert s.globals (s.e.Cursor + 1) ch
  let e1 := s.e.SetText r.text
  let e2 := e1.MoveCursorHorizontal ext 1
  let msg : Message :=
    { MessageZero with
      Username := e2.Username, MsgType := "operation",
      Operation := { OpType := "insert", Position := e2.Cursor, Value := ch } }
  let m := shiftUsersPos e2.UsersPos e2.Username e2.Cursor 1
  ({ doc := r.doc, globals := r.globals, e := { e2 with UsersPos := m } }, msg)

/-- The case `OperationDelete` of `performOperation`: the state after it and the
message it builds. -/
def performOperation.delete (ext : Externals) (s : ClientState) : ClientState × Message :=
  let e0 := if s.e.Cursor - 1 < 0 then { s.e with Cursor := 0 } else s.e
  let d := s.doc.Delete e0.Cursor
  let e1 := e0.SetText d.2
  let m := shiftUsersPos e1.UsersPos e1.Username e1.Cursor (-1)
  let e2 : Editor := { e1 with UsersPos := m }
  let msg : Message :=
    { MessageZero with
      Username := e2.Username, MsgType := "operation",
      Operation := { OpType := "delete", Position := e2.Cursor, Value := "" } }
  ({ s with doc := d.1, e := e2.MoveCursorHorizontal ext (-1) }, msg)

/-- The end of `performOperation`: the message is written on the connection when
`IsConnected` is set, and `IsConnected` is cleared when the write returns an error. -/
def performOperation.write (writeFails : Bool) (step : ClientState × Message) :
    ClientState × Option Message :=
  if step.1.e.IsConnected then
    if writeFails then
      ({ step.1 with e := { step.1.e with IsConnected := false } }, some step.2)
    else (step.1, some step.2)
  else (step.1, none)

/-- The function `performOperation` for the key event with the rune `Ch`: the state
after the call and the message it writes on the connection; `writeFails` tells
whether that write returns an error. -/
def performOperation (ext : Externals) (writeFails : Bool) (opType : Nat) (Ch : Char)
    (s : ClientState) : ClientState × Option Message :=
  performOperation.write writeFails
    (if opType = OperationInsert then performOperation.insert ext (String.singleton Ch) s
     else if opType = OperationDelete then performOperation.delete ext s
     else (s, MessageZero))

/-- The colours and library calls used when a statement needs concrete ones: every
rune is one cell wide, `Atoi` always returns a syntax error, and the ten colours are 0 to 9. -/
def sampleExternals : Externals :=
  { RuneWidth := fun _ => 1, Atoi := fun _ => (0, true), userColors := List.range 10 }

/-- An editor showing `text` with the cursor at `cursor`, for the user "me", with one
peer "bob" whose cursor entry is at position 3, connected, without scrolling. -/
def sampleEditor (text : String) (cursor : Int) : Editor :=
  { Text := text.toList, Cursor := cursor, Width := 80, Height := 24, ColOff := 0, RowOff := 0,
    Username := "me", Users := ["bob", "me"],
    UsersPos := fun name => if name = "bob" then some { Pos := 3, Col := 0 } else none,
    ScrollEnabled := false, IsConnected := true }

/-- The state of the client "me" of site 2 whose document has the content "ABC",
shown in full, with the cursor at `cursor`. -/
def sampleState (cursor : Int) : ClientState :=
  { doc := docABC, globals := { SiteID := 2, LocalClock := 0 }, e := sampleEditor "ABC" cursor }

/-- An operation message from the user "bob". -/
def operationMessage (op : Operation) : Message :=
  { MessageZero with Username := "bob", MsgType := "operation", Operation := op }

/-- Every visible value of the document is one code point. -/
def SingleRunes (doc : Document) : Prop :=
  ∀ v ∈ VisibleValues doc.Characters, v.length = 1

/-- A well-formed document whose only visible character has the value "AB". -/
def docAB1 : Document :=
  { Characters :=
      [{ ID := "start", Visible := false, Value := "", IDPrevious := "", IDNext := "31" },
       { ID := "31", Visible := true, Value := "AB", IDPrevious := "start", IDNext := "end" },
       { ID := "end", Visible := false, Value := "", IDPrevious := "31", IDNext := "" }] }

/-- A well-formed document with the two visible values "A" and "B". -/
def docAB2 : Document :=
  { Characters :=
      [{ ID := "start", Visible := false, Value := "", IDPrevious := "", IDNext := "31" },
       { ID := "31", Visible := true, Value := "A", IDPrevious := "start", IDNext := "32" },
       { ID := "32", Visible := true, Value := "B", IDPrevious := "31", IDNext := "end" },
       { ID := "end", Visible := false, Value := "", IDPrevious := "32", IDNext := "" }] }

/-- The state of a client with the document `doc`, the cursor at `cursor` and the
text of the document on screen. -/
def stateOf (doc : Document) (site : Int) (cursor : Int) : ClientState :=
  { doc := doc, globals := { SiteID := site, LocalClock := 0 },
    e := sampleEditor (Content doc) cursor }

/-- The operation message a client with the user name `username` builds for the
operation `op`. -/
def operationMessageOf (username : String) (op : Operation) : Message :=
  { MessageZero with Username := username, MsgType := "operation", Operation := op }

/-! ## Lemmas on the loops -/

theorem Position_loop_miss (id : String) (l : List Character) (k : Int)
    (h : ∀ c ∈ l, c.ID ≠ id) : Position.loop id l k = -1 := by
  induction l generalizing k with
  | nil => rfl
  | cons c cs ih =>
    have hc : id ≠ c.ID := fun e => h c (List.mem_cons_self _ _) e.symm
    simp only [Position.loop, if_neg hc]
    exact ih _ (fun d hd => h d (List.mem_cons_of_mem _ hd))

theorem Position_loop_hit (id : String) (pre : List Character) (x : Character)
    (post : List Character) (k : Int) (hpre : ∀ c ∈ pre, c.ID ≠ id) (hx : x.ID = id) :
    Position.loop id (pre ++ x :: post) k = k + pre.length + 1 := by
  induction pre generalizing k with
  | nil => simp [Position.loop, hx]
  | cons c cs ih =>
    have hc : id ≠ c.ID := fun e => hpre c (List.mem_cons_self _ _) e.symm
    have h := ih (k + 1) (fun d hd => hpre d (List.mem_cons_of_mem _ hd))
    show Position.loop id (c :: (cs ++ x :: post)) k = _
    simp only [Position.loop, if_neg hc, List.length_cons, h]
    push_cast
    ring

theorem Position_loop_range (id : String) (l : List Character) (k : Int) :
    Position.loop id l k = -1 ∨
      (k < Position.loop id l k ∧ Position.loop id l k ≤ k + l.length) := by
  induction l generalizing k with
  | nil => left; rfl
  | cons c cs ih =>
    simp only [Position.loop, List.length_cons]
    split
    · right; constructor <;> push_cast <;> omega
    · rcases ih (k + 1) with h | h
      · left; exact h
      · right; constructor <;> push_cast <;> omega

theorem Position_loop_eq_neg_one (id : String) (l : List Character) (k : Int) (hk : 0 ≤ k)
    (h : Position.loop id l k = -1) : ∀ c ∈ l, c.ID ≠ id := by
  induction l generalizing k with
  | nil => intro c hc; cases hc
  | cons c cs ih =>
    simp only [Position.loop] at h
    split at h
    · omega
    · rename_i hne
      intro d hd
      rcases List.mem_cons.1 hd with rfl | hd
      · exact fun e => hne e.symm
      · exact ih (k + 1) (by omega) h d hd

/-- In a list with pairwise distinct ids, `Position` of a stored character's id is
its 1-based index. -/
theorem Position_of_nodup (pre : List Character) (x : Character) (post : List Character)
    (id : String) (hx : x.ID = id)
    (hnd : ((pre ++ x :: post).map Character.ID).Nodup) :
    Document.Position { Characters := pre ++ x :: post } id = pre.length + 1 := by
  have hpre : ∀ c ∈ pre, c.ID ≠ id := by
    intro c hc e
    rw [List.map_append, List.map_cons, List.nodup_append] at hnd
    exact hnd.2.2 (List.mem_map_of_mem _ hc) (by rw [e, ← hx]; exact List.mem_cons_self _ _)
  simp [Document.Position, Position_loop_hit id pre x post 0 hpre hx]

theorem Find_loop_hit (id : String) (pre : List Character) (x : Character)
    (post : List Character) (hpre : ∀ c ∈ pre, c.ID ≠ id) (hx : x.ID = id) :
    Find.loop id (pre ++ x :: post) = x := by
  induction pre with
  | nil => simp [Find.loop, hx]
  | cons c cs ih =>
    have hc : c.ID ≠ id := hpre c (List.mem_cons_self _ _)
    show Find.loop id (c :: (cs ++ x :: post)) = x
    simp only [Find.loop, if_neg hc]
    exact ih (fun d hd => hpre d (List.mem_cons_of_mem _ hd))

theorem map_modify_of_fixed {β : Type} (g : Character → β) (f : Character → Character)
    (hf : ∀ x, g (f x) = g x) (n : Nat) (l : List Character) :
    (List.modify f n l).map g = l.map g := by
  induction l generalizing n with
  | nil => simp
  | cons c cs ih =>
    cases n with
    | zero => simp [hf]
    | succ n => simp [ih]

/-- The splice of `LocalInsert` keeps id, visibility and value of every stored
character and puts the new character at index `p`. -/
theorem spliceAt_core (l : List Character) (char : Character) (p : Nat) :
    (spliceAt l char p).map Character.core =
      (l.take p).map Character.core ++ char.core :: (l.drop p).map Character.core := by
  unfold spliceAt
  simp only []
  rw [map_modify_of_fixed Character.core (Character.withIDPrevious char.ID) (fun x => rfl),
    map_modify_of_fixed Character.core (Character.withIDNext char.ID) (fun x => rfl)]
  simp

theorem spliceAt_length (l : List Character) (char : Character) (p : Nat) :
    (spliceAt l char p).length = l.length + 1 := by
  have h := congrArg List.length (spliceAt_core l char p)
  simp only [List.length_map, List.length_append, List.length_cons, List.length_take,
    List.length_drop] at h
  omega

theorem walk_range (id : String) (r : List Character) (i : Nat) (hr : r ≠ []) :
    i ≤ IntegrateInsert.walk id r i ∧ IntegrateInsert.walk id r i + 1 ≤ i + r.length := by
  induction r generalizing i with
  | nil => exact absurd rfl hr
  | cons s t ih =>
    cases t with
    | nil => simp [IntegrateInsert.walk]
    | cons u v =>
      simp only [IntegrateInsert.walk]
      split
      · have := ih (i + 1) (by simp)
        simp only [List.length_cons] at this ⊢
        omega
      · simp only [List.length_cons]; omega

/-! ## Placement of an integrated character -/

theorem placeIndex_le (charID : String) (mid : List Character) :
    placeIndex charID mid ≤ mid.length := by
  unfold placeIndex
  split
  · omega
  · have h := walk_range charID (mid.drop 1) 1
      (by intro e; have := congrArg List.length e; simp at this; omega)
    simp only [List.length_drop] at h
    omega

theorem LocalInsert_ok (l : List Character) (char : Character) (p : Nat)
    (hp : 0 < p) (hlen : p < l.length) (hid : char.ID ≠ "") :
    Document.LocalInsert { Characters := l } char (p : Int) =
      ({ Characters := spliceAt l char p }, none) := by
  unfold Document.LocalInsert Document.Length
  have h1 : ¬ ((p : Int) ≤ 0 ∨ (p : Int) ≥ ((l.length : Nat) : Int)) := by omega
  simp only [if_neg h1, if_neg hid, Int.toNat_ofNat]

/-- The subsequence between two stored bounds of a document with pairwise distinct
ids is exactly what is stored strictly between them. -/
theorem Subseq_between (pre mid post : List Character) (x y cp cn : Character)
    (hnd : ((pre ++ x :: mid ++ y :: post).map Character.ID).Nodup)
    (hcp : cp.ID = x.ID) (hcn : cn.ID = y.ID) :
    Document.Subseq { Characters := pre ++ x :: mid ++ y :: post } cp cn = (mid, none) := by
  have e1 : pre ++ x :: mid ++ y :: post = pre ++ x :: (mid ++ y :: post) := by simp
  have e2 : pre ++ x :: mid ++ y :: post = (pre ++ x :: mid) ++ y :: post := by simp
  have hs : Document.Position { Characters := pre ++ x :: mid ++ y :: post } cp.ID
      = pre.length + 1 := by
    have h := hnd
    rw [e1] at h
    rw [e1]
    exact Position_of_nodup pre x _ cp.ID hcp.symm h
  have he : Document.Position { Characters := pre ++ x :: mid ++ y :: post } cn.ID
      = pre.length + 1 + mid.length + 1 := by
    have h := hnd
    rw [e2] at h
    rw [e2, Position_of_nodup (pre ++ x :: mid) y post cn.ID hcn.symm h]
    simp only [List.length_append, List.length_cons]
    push_cast
    ring
  unfold Document.Subseq
  simp only [hs, he]
  have c1 : ¬ ((pre.length : Int) + 1 = -1 ∨ (pre.length : Int) + 1 + mid.length + 1 = -1) := by
    omega
  have c2 : ¬ ((pre.length : Int) + 1 > (pre.length : Int) + 1 + mid.length + 1) := by omega
  have c3 : ¬ ((pre.length : Int) + 1 = (pre.length : Int) + 1 + mid.length + 1) := by omega
  simp only [if_neg c1, if_neg c2, if_neg c3]
  have t1 : ((pre.length : Int) + 1).toNat = pre.length + 1 := by omega
  have t2 : ((pre.length : Int) + 1 + mid.length + 1 - 1).toNat = pre.length + 1 + mid.length := by
    omega
  rw [t1, t2]
  unfold slice
  have e3 : pre ++ x :: mid ++ y :: post = (pre ++ [x]) ++ (mid ++ y :: post) := by simp
  have l3 : (pre ++ [x]).length = pre.length + 1 := by simp
  rw [e3, ← l3, List.take_append, List.drop_left, List.take_left]

theorem Position_next_between (pre mid post : List Character) (x y cn : Character)
    (hnd : ((pre ++ x :: mid ++ y :: post).map Character.ID).Nodup) (hcn : cn.ID = y.ID) :
    Document.Position { Characters := pre ++ x :: mid ++ y :: post } cn.ID
      = pre.length + 1 + mid.length + 1 := by
  have e2 : pre ++ x :: mid ++ y :: post = (pre ++ x :: mid) ++ y :: post := by simp
  have h := hnd
  rw [e2] at h
  rw [e2, Position_of_nodup (pre ++ x :: mid) y post cn.ID hcn.symm h]
  simp only [List.length_append, List.length_cons]
  push_cast
  ring

/-- One call of `IntegrateInsert` whose bounds are stored next to each other
splices the character between them. -/
theorem IntegrateInsertFuel_adjacent (n : Nat) (pre post : List Character)
    (x y char cp cn : Character)
    (hnd : ((pre ++ x :: y :: post).map Character.ID).Nodup)
    (hcp : cp.ID = x.ID) (hcn : cn.ID = y.ID) (hid : char.ID ≠ "") :
    Document.IntegrateInsertFuel (n + 1) { Characters := pre ++ x :: y :: post } char cp cn =
      some ({ Characters := spliceAt (pre ++ x :: y :: post) char (pre.length + 1) }, none) := by
  have e0 : pre ++ x :: [] ++ y :: post = pre ++ x :: y :: post := by simp
  have hsub := Subseq_between pre [] post x y cp cn (by rw [e0]; exact hnd) hcp hcn
  have hpos := Position_next_between pre [] post x y cn (by rw [e0]; exact hnd) hcn
  rw [e0] at hsub hpos
  simp only [Document.IntegrateInsertFuel, hsub, hpos, List.length_nil, if_true]
  have e : ((pre.length : Int) + 1 + ((0 : Nat) : Int) + 1 - 1) = ((pre.length + 1 : Nat) : Int) := by
    push_cast; ring
  rw [e, LocalInsert_ok _ char (pre.length + 1) (by omega) (by simp) hid]

/-- Placement of `IntegrateInsert` on a document with pairwise distinct ids: with
`mid` the characters stored strictly between the bounds, the character is spliced
at `placeIndex` inside `mid`, after at most one recursive call. -/
theorem IntegrateInsertFuel_between (n : Nat) (pre mid post : List Character)
    (x y char cp cn : Character)
    (hnd : ((pre ++ x :: mid ++ y :: post).map Character.ID).Nodup)
    (hcp : cp.ID = x.ID) (hcn : cn.ID = y.ID) (hid : char.ID ≠ "") :
    Document.IntegrateInsertFuel (n + 2) { Characters := pre ++ x :: mid ++ y :: post }
        char cp cn =
      some (Document.mk (spliceAt (pre ++ x :: mid ++ y :: post) char
        (pre.length + 1 + placeIndex char.ID mid)), none) := by
  have hsub := Subseq_between pre mid post x y cp cn hnd hcp hcn
  have hpos := Position_next_between pre mid post x y cn hnd hcn
  have hlen : (pre ++ x :: mid ++ y :: post).length = pre.length + 1 + mid.length + 1 + post.length := by
    simp only [List.length_append, List.length_cons]; omega
  rw [Document.IntegrateInsertFuel]
  simp only [hsub, hpos]
  by_cases h0 : mid.length = 0
  · have e : ((pre.length : Int) + 1 + (mid.length : Int) + 1 - 1)
        = ((pre.length + 1 + placeIndex char.ID mid : Nat) : Int) := by
      simp only [placeIndex, h0]; push_cast; simp
    rw [if_pos h0, e, LocalInsert_ok _ char _ (by omega)
      (by have := placeIndex_le char.ID mid; omega) hid]
  · rw [if_neg h0]
    by_cases h1 : mid.length = 1
    · have e : ((pre.length : Int) + 1 + (mid.length : Int) + 1 - 1 - 1)
          = ((pre.length + 1 + placeIndex char.ID mid : Nat) : Int) := by
        simp only [placeIndex, h1]; push_cast; simp
      rw [if_pos h1, e, LocalInsert_ok _ char _ (by omega)
        (by have := placeIndex_le char.ID mid; omega) hid]
    · rw [if_neg h1]
      have hne : mid.drop 1 ≠ [] := by
        intro e; have := congrArg List.length e; simp at this; omega
      have hw := walk_range char.ID (mid.drop 1) 1 hne
      simp only [List.length_drop] at hw
      have hpi : placeIndex char.ID mid = IntegrateInsert.walk char.ID (mid.drop 1) 1 := by
        unfold placeIndex; rw [if_neg (by omega)]
      rw [← hpi] at hw ⊢
      generalize placeIndex char.ID mid = i at hw ⊢
      have hi1 : i - 1 < mid.length := by omega
      have hi2 : i < mid.length := by omega
      have hsplit : mid = mid.take (i - 1) ++ mid[i - 1] :: mid[i] :: mid.drop (i + 1) := by
        have a1 : mid.drop (i - 1) = mid[i - 1] :: mid.drop (i - 1 + 1) :=
          List.drop_eq_getElem_cons hi1
        have a2 : mid.drop i = mid[i] :: mid.drop (i + 1) := List.drop_eq_getElem_cons hi2
        have a3 : i - 1 + 1 = i := by omega
        rw [a3, a2] at a1
        rw [← a1, List.take_append_drop]
      rw [List.getD_eq_getElem mid CharacterZero hi1, List.getD_eq_getElem mid CharacterZero hi2]
      generalize mid[i - 1] = s at hsplit
      generalize mid[i] = t at hsplit
      have htl : (mid.take (i - 1)).length = i - 1 := by
        rw [List.length_take]; omega
      have eL : pre ++ x :: mid ++ y :: post =
          (pre ++ x :: mid.take (i - 1)) ++ s :: t :: (mid.drop (i + 1) ++ y :: post) := by
        conv_lhs => rw [hsplit]
        simp
      have hnd2 := hnd
      rw [eL] at hnd2
      rw [eL, IntegrateInsertFuel_adjacent n _ _ s t char s t hnd2 rfl rfl hid]
      have eN : (pre ++ x :: List.take (i - 1) mid).length + 1 = pre.length + 1 + i := by
        simp only [List.length_append, List.length_cons, htl]; omega
      rw [eN]

/-- The method `IntegrateInsert` on a document with pairwise distinct ids whose
bounds are stored in order: no error, and the character is spliced at `placeIndex`
inside the subsequence between the bounds. -/
theorem IntegrateInsert_between (pre mid post : List Character)
    (x y char cp cn : Character)
    (hnd : ((pre ++ x :: mid ++ y :: post).map Character.ID).Nodup)
    (hcp : cp.ID = x.ID) (hcn : cn.ID = y.ID) (hid : char.ID ≠ "") :
    Document.IntegrateInsert { Characters := pre ++ x :: mid ++ y :: post } char cp cn =
      (Document.mk (spliceAt (pre ++ x :: mid ++ y :: post) char
        (pre.length + 1 + placeIndex char.ID mid)), none) := by
  unfold Document.IntegrateInsert
  have hlen : (pre ++ x :: mid ++ y :: post).length + 1
      = (pre.length + mid.length + post.length + 1) + 2 := by
    simp only [List.length_append, List.length_cons]; omega
  simp only [hlen]
  rw [IntegrateInsertFuel_between _ pre mid post x y char cp cn hnd hcp hcn hid]
  rfl

/-! ## Visible characters -/

theorem IthVisible_loop_hit (position : Int) (pre : List Character) (x : Character)
    (post : List Character) (count : Int) (hx : x.Visible = true)
    (h : position - 1 = count + (pre.filter Character.Visible).length) :
    IthVisible.loop position (pre ++ x :: post) count = x := by
  induction pre generalizing count with
  | nil =>
    have h0 : count = position - 1 := by simp at h; omega
    simp [IthVisible.loop, hx, h0]
  | cons c cs ih =>
    show IthVisible.loop position (c :: (cs ++ x :: post)) count = x
    by_cases hc : c.Visible = true
    · have hne : ¬ count = position - 1 := by
        simp only [List.filter_cons, hc, if_true, List.length_cons] at h
        push_cast at h
        omega
      simp only [IthVisible.loop, hc, if_true, if_neg hne]
      apply ih
      simp only [List.filter_cons, hc, if_true, List.length_cons] at h
      push_cast at h
      omega
    · simp only [IthVisible.loop, hc, Bool.false_eq_true, if_false]
      apply ih
      simp only [List.filter_cons, hc, Bool.false_eq_true, if_false] at h
      exact h

theorem IthVisible_loop_none (position : Int) (l : List Character) (count : Int)
    (h : position - 1 < count ∨ count + (l.filter Character.Visible).length ≤ position - 1) :
    IthVisible.loop position l count = CharacterNone := by
  induction l generalizing count with
  | nil => rfl
  | cons c cs ih =>
    by_cases hc : c.Visible = true
    · simp only [List.filter_cons, hc, if_true, List.length_cons] at h
      push_cast at h
      have hne : ¬ count = position - 1 := by omega
      simp only [IthVisible.loop, hc, if_true, if_neg hne]
      apply ih
      omega
    · simp only [List.filter_cons, hc, Bool.false_eq_true, if_false] at h
      simp only [IthVisible.loop, hc, Bool.false_eq_true, if_false]
      exact ih _ h

/-- The visible character number `k + 1` splits the list. -/
theorem exists_kth_visible (l : List Character) (k : Nat)
    (hk : k < (l.filter Character.Visible).length) :
    ∃ pre x post, l = pre ++ x :: post ∧ x.Visible = true ∧
      (pre.filter Character.Visible).length = k := by
  induction l generalizing k with
  | nil => simp at hk
  | cons c cs ih =>
    by_cases hc : c.Visible = true
    · cases k with
      | zero => exact ⟨[], c, cs, rfl, hc, rfl⟩
      | succ k =>
        simp only [List.filter_cons, hc, if_true, List.length_cons] at hk
        obtain ⟨pre, x, post, e, hx, hn⟩ := ih k (by omega)
        refine ⟨c :: pre, x, post, by rw [e]; rfl, hx, ?_⟩
        simp [List.filter_cons, hc, hn]
    · simp only [List.filter_cons, hc, Bool.false_eq_true, if_false] at hk
      obtain ⟨pre, x, post, e, hx, hn⟩ := ih k hk
      refine ⟨c :: pre, x, post, by rw [e]; rfl, hx, ?_⟩
      simp [List.filter_cons, hc, hn]

theorem filter_visible_eq_nil {l : List Character}
    (h : (l.filter Character.Visible).length = 0) : ∀ c ∈ l, c.Visible = false := by
  intro c hc
  have h2 : l.filter Character.Visible = [] := List.length_eq_zero.1 h
  rw [List.filter_eq_nil_iff] at h2
  simpa using h2 c hc

theorem filter_visible_of_invisible {l : List Character} (h : ∀ c ∈ l, c.Visible = false) :
    l.filter Character.Visible = [] := by
  rw [List.filter_eq_nil_iff]
  intro c hc
  simp [h c hc]

theorem VisibleValues_append (a b : List Character) :
    VisibleValues (a ++ b) = VisibleValues a ++ VisibleValues b := by
  simp [VisibleValues]

theorem VisibleValues_of_invisible {l : List Character} (h : ∀ c ∈ l, c.Visible = false) :
    VisibleValues l = [] := by
  simp [VisibleValues, filter_visible_of_invisible h]

theorem VisibleValues_length (l : List Character) :
    (VisibleValues l).length = (l.filter Character.Visible).length := by
  simp [VisibleValues]

/-- The visible values are determined by id, visibility and value of the stored
characters. -/
theorem VisibleValues_eq_of_core (l : List Character) :
    VisibleValues l = ((l.map Character.core).filter (fun t => t.2.1)).map (fun t => t.2.2) := by
  induction l with
  | nil => rfl
  | cons c cs ih =>
    by_cases hc : c.Visible = true
    · simp only [VisibleValues, List.filter_cons, hc, if_true, List.map_cons, Character.core] at ih ⊢
      rw [ih]
    · simp only [VisibleValues, List.filter_cons, hc, Bool.false_eq_true, if_false, List.map_cons,
        Character.core] at ih ⊢
      rw [ih]

theorem Content_loop_eq (l : List Character) (value : String) :
    Content.loop l value = (VisibleValues l).foldl (fun a b => a ++ b) value := by
  induction l generalizing value with
  | nil => rfl
  | cons c cs ih =>
    by_cases hc : c.Visible = true
    · simp [Content.loop, VisibleValues, List.filter_cons, hc, ih]
    · simp [Content.loop, VisibleValues, List.filter_cons, hc, ih]

/-- The text returned by `Content` is the concatenation of the visible values. -/
theorem Content_eq (doc : Document) :
    Content doc = (VisibleValues doc.Characters).foldl (fun a b => a ++ b) "" :=
  Content_loop_eq doc.Characters ""

/-- The visible values after splicing a visible character in at index `p`. -/
theorem VisibleValues_spliceAt_take_drop (l : List Character) (char : Character) (p : Nat)
    (hv : char.Visible = true) :
    VisibleValues (spliceAt l char p) =
      VisibleValues (l.take p) ++ char.Value :: VisibleValues (l.drop p) := by
  rw [VisibleValues_eq_of_core, spliceAt_core, VisibleValues_eq_of_core (l.take p),
    VisibleValues_eq_of_core (l.drop p)]
  simp [List.filter_cons, Character.core, hv]

/-- The visible values after a splice between two stored characters that have only
invisible characters between them. -/
theorem VisibleValues_spliceAt (pre mid post : List Character) (x y char : Character)
    (k : Nat) (hk : k ≤ mid.length) (hmid : ∀ c ∈ mid, c.Visible = false)
    (hv : char.Visible = true) :
    VisibleValues (spliceAt (pre ++ x :: mid ++ y :: post) char (pre.length + 1 + k)) =
      VisibleValues (pre ++ [x]) ++ char.Value :: VisibleValues (y :: post) := by
  have e3 : pre ++ x :: mid ++ y :: post = (pre ++ [x]) ++ (mid ++ y :: post) := by simp
  have l3 : (pre ++ [x]).length = pre.length + 1 := by simp
  have ht : (pre ++ x :: mid ++ y :: post).take (pre.length + 1 + k)
      = (pre ++ [x]) ++ mid.take k := by
    rw [e3, ← l3, List.take_append, List.take_append_of_le_length hk]
  have hd : (pre ++ x :: mid ++ y :: post).drop (pre.length + 1 + k)
      = mid.drop k ++ y :: post := by
    rw [e3, ← l3, List.drop_append, List.drop_append_of_le_length hk]
  have h1 : VisibleValues (mid.take k) = [] :=
    VisibleValues_of_invisible (fun c hc => hmid c (List.mem_of_mem_take hc))
  have h2 : VisibleValues (mid.drop k) = [] :=
    VisibleValues_of_invisible (fun c hc => hmid c (List.mem_of_mem_drop hc))
  rw [VisibleValues_spliceAt_take_drop _ _ _ hv, ht, hd, VisibleValues_append,
    VisibleValues_append (mid.drop k), h1, h2]
  simp

theorem toDigitsCore_ne_nil (b fuel n : Nat) (ds : List Char) (h : ds ≠ []) :
    Nat.toDigitsCore b fuel n ds ≠ [] := by
  induction fuel generalizing n ds with
  | zero => simpa [Nat.toDigitsCore] using h
  | succ f ih =>
    simp only [Nat.toDigitsCore]
    split
    · simp
    · exact ih _ _ (by simp)

theorem Nat_repr_ne_empty (n : Nat) : Nat.repr n ≠ "" := by
  intro h
  have h2 : (Nat.repr n).data = [] := by rw [h]
  simp only [Nat.repr, Nat.toDigits, List.asString, Nat.toDigitsCore] at h2
  split at h2
  · simp at h2
  · exact toDigitsCore_ne_nil _ _ _ _ (by simp) h2

theorem String_append_ne_empty (a b : String) (ha : a ≠ "") : a ++ b ≠ "" := by
  intro h
  apply ha
  have h2 := congrArg String.data h
  rw [String.data_append] at h2
  have h3 : a.data = [] := (List.append_eq_nil.1 h2).1
  exact String.ext h3

theorem Sprint_ne_empty (n : Int) : Sprint n ≠ "" := by
  unfold Sprint
  split
  · exact String_append_ne_empty _ _ (by decide)
  · exact Nat_repr_ne_empty _

/-! ## The bounds chosen by `GenerateInsert` -/

theorem GenerateInsert_eq (g : Globals) (doc : Document) (position : Int) (value : String) :
    doc.GenerateInsert g position value =
      ({ g with LocalClock := wrapInt (g.LocalClock + 1) },
        doc.IntegrateInsert (newCharacter g doc position value)
          (prevBound doc position) (nextBound doc position)) := rfl

theorem newCharacter_ID_ne_empty (g : Globals) (doc : Document) (position : Int)
    (value : String) : (newCharacter g doc position value).ID ≠ "" :=
  String_append_ne_empty _ _ (Sprint_ne_empty _)

theorem WellFormed.head_eq {doc : Document} (hwf : WellFormed doc) :
    ∃ h t, doc.Characters = h :: t ∧ h.ID = "start" ∧ h.Visible = false := by
  obtain ⟨h1, h2⟩ := hwf.first
  cases hl : doc.Characters with
  | nil => rw [hl] at h1; simp at h1
  | cons h t =>
    rw [hl] at h1 h2
    refine ⟨h, t, rfl, ?_, ?_⟩
    · simpa using h1
    · simpa using h2

theorem WellFormed.last_eq {doc : Document} (hwf : WellFormed doc) :
    ∃ init e, doc.Characters = init ++ [e] ∧ e.ID = "end" ∧ e.Visible = false := by
  obtain ⟨h1, h2⟩ := hwf.last
  cases hl : doc.Characters.getLast? with
  | none => rw [hl] at h1; simp at h1
  | some e =>
    rw [hl] at h1 h2
    obtain ⟨init, hi⟩ := List.getLast?_eq_some_iff.1 hl
    refine ⟨init, e, hi, ?_, ?_⟩
    · simpa using h1
    · simpa using h2

theorem WellFormed.find_end {doc : Document} (hwf : WellFormed doc) (init : List Character)
    (e : Character) (hl : doc.Characters = init ++ [e]) (he : e.ID = "end") :
    doc.Find "end" = e := by
  have hnd := hwf.distinct
  unfold Document.ids at hnd
  rw [hl, List.map_append, List.nodup_append] at hnd
  unfold Document.Find
  rw [hl]
  apply Find_loop_hit "end" init e [] _ he
  intro c hc hce
  exact hnd.2.2 (List.mem_map_of_mem _ hc) (by rw [hce, ← he]; simp)

/-- The two bounds `GenerateInsert` chooses for a position `k + 1` between 1 and the
visible length plus one are stored in this order, with only invisible characters
between them and exactly `k` visible characters up to the left bound. -/
theorem insert_bounds (doc : Document) (hwf : WellFormed doc) (k : Nat)
    (hk : k ≤ VisibleLength doc) :
    ∃ pre x mid y post, doc.Characters = pre ++ x :: mid ++ y :: post ∧
      prevBound doc ((k : Int) + 1) = x ∧ nextBound doc ((k : Int) + 1) = y ∧
      (∀ c ∈ mid, c.Visible = false) ∧
      ((pre ++ [x]).filter Character.Visible).length = k := by
  obtain ⟨h, t, hht, hhid, hhvis⟩ := hwf.head_eq
  obtain ⟨init, e, hie, heid, hevis⟩ := hwf.last_eq
  -- the left bound
  have left : ∃ pre x rest, doc.Characters = pre ++ x :: rest ∧
      prevBound doc ((k : Int) + 1) = x ∧
      ((pre ++ [x]).filter Character.Visible).length = k ∧ rest ≠ [] := by
    cases k with
    | zero =>
      refine ⟨[], h, t, hht, ?_, ?_, ?_⟩
      · have hn : IthVisible doc (((0 : Nat) : Int) + 1 - 1) = CharacterNone :=
          IthVisible_loop_none _ _ _ (Or.inl (by simp))
        unfold prevBound
        rw [hn, if_pos (by rfl)]
        unfold Document.Find
        rw [hht]
        simp [Find.loop, hhid]
      · simp [List.filter_cons, hhvis]
      · intro ht
        rw [hht, ht] at hie
        have hlen := congrArg List.length hie
        simp only [List.length_cons, List.length_nil, List.length_append] at hlen
        have hin : init = [] := List.length_eq_zero.1 (by omega)
        rw [hin] at hie
        simp only [List.nil_append, List.cons.injEq, and_true] at hie
        rw [hie, heid] at hhid
        exact absurd hhid (by decide)
    | succ k =>
      obtain ⟨pre, x, rest, hl, hx, hn⟩ := exists_kth_visible doc.Characters k (by
        unfold VisibleLength at hk; omega)
      refine ⟨pre, x, rest, hl, ?_, ?_, ?_⟩
      · have hi : IthVisible doc (((k + 1 : Nat) : Int) + 1 - 1) = x := by
          unfold IthVisible
          rw [hl]
          apply IthVisible_loop_hit _ _ _ _ _ hx
          rw [hn]; push_cast; ring
        unfold prevBound
        rw [hi, if_neg]
        exact hwf.noMinusOne x (by rw [hl]; simp)
      · simp [List.filter_append, List.filter_cons, hx, hn]
      · intro hr
        rw [hl, hr] at hie
        have := List.append_inj_right' hie rfl
        simp only [List.cons.injEq, and_true] at this
        rw [this, hevis] at hx
        exact absurd hx (by decide)
  obtain ⟨pre, x, rest, hl, hprev, hcount, hrest⟩ := left
  have hN : VisibleLength doc = k + (rest.filter Character.Visible).length := by
    unfold VisibleLength
    have e1 : pre ++ x :: rest = (pre ++ [x]) ++ rest := by simp
    rw [hl, e1, List.filter_append, List.length_append, hcount]
  by_cases hlt : k < VisibleLength doc
  · obtain ⟨mid, y, post, hr, hy, hn⟩ := exists_kth_visible rest 0 (by omega)
    refine ⟨pre, x, mid, y, post, by rw [hl, hr]; simp, hprev, ?_, filter_visible_eq_nil hn, hcount⟩
    have hi : IthVisible doc ((k : Int) + 1) = y := by
      unfold IthVisible
      have e2 : pre ++ x :: (mid ++ y :: post) = ((pre ++ [x]) ++ mid) ++ y :: post := by simp
      rw [hl, hr, e2]
      apply IthVisible_loop_hit _ _ _ _ _ hy
      rw [List.filter_append, List.length_append, hcount, hn]
      push_cast; ring
    unfold nextBound
    rw [hi, if_neg]
    exact hwf.noMinusOne y (by rw [hl, hr]; simp)
  · have hz : (rest.filter Character.Visible).length = 0 := by omega
    rcases List.eq_nil_or_concat rest with hr | ⟨mid, y, hr⟩
    · exact absurd hr hrest
    · rw [List.concat_eq_append] at hr
      have hye : y = e := by
        have e2 : pre ++ x :: (mid ++ [y]) = (pre ++ x :: mid) ++ [y] := by simp
        rw [hl, hr, e2] at hie
        have := List.append_inj_right' hie rfl
        simpa using this
      refine ⟨pre, x, mid, y, [], by rw [hl, hr]; simp, hprev, ?_, ?_, hcount⟩
      · have hn : IthVisible doc ((k : Int) + 1) = CharacterNone := by
          apply IthVisible_loop_none
          right
          have : (doc.Characters.filter Character.Visible).length = k := by
            unfold VisibleLength at hN; omega
          rw [this]; omega
        unfold nextBound
        rw [hn, if_pos (by rfl), hye]
        exact hwf.find_end init e hie heid
      · intro c hc
        exact filter_visible_eq_nil hz c (by rw [hr]; simp [hc])

/-! ## `Insert` -/

theorem WellFormed_New : WellFormed New :=
  ⟨by decide, by decide, by decide, by decide⟩

/-- The call `Insert` on a document with pairwise distinct ids whose two bounds are
stored in order: no error, the new character is spliced between the bounds, and the
returned text is the content of the document after the call. -/
theorem Insert_between (g : Globals) (doc : Document) (p : Int) (v : String)
    (pre mid post : List Character) (x y : Character)
    (hl : doc.Characters = pre ++ x :: mid ++ y :: post) (hnd : doc.ids.Nodup)
    (hp : (prevBound doc p).ID = x.ID) (hn : (nextBound doc p).ID = y.ID) :
    doc.Insert g p v =
      { globals := { g with LocalClock := wrapInt (g.LocalClock + 1) }
        doc := Document.mk (spliceAt doc.Characters (newCharacter g doc p v)
          (pre.length + 1 + placeIndex (newCharacter g doc p v).ID mid))
        text := Content (Document.mk (spliceAt doc.Characters (newCharacter g doc p v)
          (pre.length + 1 + placeIndex (newCharacter g doc p v).ID mid)))
        err := none } := by
  have h := IntegrateInsert_between pre mid post x y (newCharacter g doc p v)
    (prevBound doc p) (nextBound doc p) (by unfold Document.ids at hnd; rw [hl] at hnd; exact hnd)
    hp hn (newCharacter_ID_ne_empty g doc p v)
  have hd : doc = { Characters := pre ++ x :: mid ++ y :: post } := by
    cases doc; simp only at hl; rw [hl]
  unfold Document.Insert
  rw [GenerateInsert_eq]
  rw [← hd] at h
  rw [h, hl]

theorem VisibleValues_split (pre mid post : List Character) (x y : Character) (k : Nat)
    (hmid : ∀ c ∈ mid, c.Visible = false)
    (hcount : ((pre ++ [x]).filter Character.Visible).length = k) :
    (VisibleValues (pre ++ x :: mid ++ y :: post)).take k = VisibleValues (pre ++ [x]) ∧
    (VisibleValues (pre ++ x :: mid ++ y :: post)).drop k = VisibleValues (y :: post) := by
  have e3 : pre ++ x :: mid ++ y :: post = (pre ++ [x]) ++ (mid ++ y :: post) := by simp
  have hlen : (VisibleValues (pre ++ [x])).length = k := by
    rw [VisibleValues_length, hcount]
  rw [e3, VisibleValues_append, VisibleValues_append mid, VisibleValues_of_invisible hmid,
    List.nil_append]
  exact ⟨List.take_left' hlen, List.drop_left' hlen⟩

/-- The visible values after `Insert(p, v)` with `1 ≤ p ≤ N + 1` on a well-formed
document: `v` becomes the `p`-th visible value. -/
theorem VisibleValues_Insert (g : Globals) (doc : Document) (p : Int) (v : String)
    (hwf : WellFormed doc) (h1 : 1 ≤ p) (h2 : p ≤ (VisibleLength doc : Int) + 1) :
    VisibleValues (doc.Insert g p v).doc.Characters =
      (VisibleValues doc.Characters).take (p - 1).toNat ++
        v :: (VisibleValues doc.Characters).drop (p - 1).toNat := by
  obtain ⟨k, hk⟩ : ∃ k : Nat, p = (k : Int) + 1 := ⟨(p - 1).toNat, by omega⟩
  subst hk
  obtain ⟨pre, x, mid, y, post, hl, hp, hn, hmid, hcount⟩ :=
    insert_bounds doc hwf k (by omega)
  have hI := Insert_between g doc ((k : Int) + 1) v pre mid post x y hl hwf.distinct
    (by rw [hp]) (by rw [hn])
  rw [hI]
  have ht : ((k : Int) + 1 - 1).toNat = k := by omega
  have hs := VisibleValues_split pre mid post x y k hmid hcount
  simp only [ht, hl]
  rw [hs.1, hs.2]
  exact VisibleValues_spliceAt pre mid post x y _ _ (placeIndex_le _ mid) hmid rfl

/-- The call `Insert` returns the content of the receiver after the call, with or
without an error. -/
theorem Insert_text_eq (g : Globals) (doc : Document) (position : Int) (value : String) :
    (doc.Insert g position value).text = Content (doc.Insert g position value).doc := by
  unfold Document.Insert
  split <;> rfl

/-- C1: on a well-formed document with `N` visible characters, `Insert(p, v)` with
`1 ≤ p ≤ N + 1` returns no error, the returned text is the `Content` of the updated
document, and the visible values of the updated document are the old ones with `v`
inserted as the `p`-th: the first `p - 1` are unchanged and the rest follow `v`. -/
theorem Insert_in_range (g : Globals) (doc : Document) (p : Int) (v : String)
    (hwf : WellFormed doc) (h1 : 1 ≤ p) (h2 : p ≤ (VisibleLength doc : Int) + 1) :
    (doc.Insert g p v).err = none ∧
    (doc.Insert g p v).text = Content (doc.Insert g p v).doc ∧
    VisibleValues (doc.Insert g p v).doc.Characters =
      (VisibleValues doc.Characters).take (p - 1).toNat ++
        v :: (VisibleValues doc.Characters).drop (p - 1).toNat := by
  refine ⟨?_, Insert_text_eq g doc p v, VisibleValues_Insert g doc p v hwf h1 h2⟩
  obtain ⟨pre, x, mid, y, post, hl, hp, hn⟩ : ∃ pre x mid y post,
      doc.Characters = pre ++ x :: mid ++ y :: post ∧
      prevBound doc p = x ∧ nextBound doc p = y := by
    obtain ⟨k, hk⟩ : ∃ k : Nat, p = (k : Int) + 1 := ⟨(p - 1).toNat, by omega⟩
    subst hk
    obtain ⟨pre, x, mid, y, post, hl, hp, hn, _, _⟩ := insert_bounds doc hwf k (by omega)
    exact ⟨pre, x, mid, y, post, hl, hp, hn⟩
  rw [Insert_between g doc p v pre mid post x y hl hwf.distinct (by rw [hp]) (by rw [hn])]

/-- C1, witness: `New()` then `Insert(1, "A")` returns the text `"A"` and no error. -/
theorem Insert_in_range_witness :
    (New.Insert { SiteID := 1, LocalClock := 0 } 1 "A").text = "A" ∧
    (New.Insert { SiteID := 1, LocalClock := 0 } 1 "A").err = none ∧
    (New.Insert { SiteID := 1, LocalClock := 0 } 1 "A").text =
      Content (New.Insert { SiteID := 1, LocalClock := 0 } 1 "A").doc ∧
    VisibleValues (New.Insert { SiteID := 1, LocalClock := 0 } 1 "A").doc.Characters = ["A"] :=
  have h := Insert_in_range { SiteID := 1, LocalClock := 0 } New 1 "A" WellFormed_New
    (by decide) (by decide)
  ⟨by decide, h.1, h.2.1, h.2.2⟩

/-! ## `Delete` -/

theorem modify_append_cons (f : Character → Character) (pre : List Character) (x : Character)
    (post : List Character) :
    List.modify f pre.length (pre ++ x :: post) = pre ++ f x :: post := by
  induction pre with
  | nil => rfl
  | cons c cs ih => simp [ih]

theorem eraseIdx_append_cons {α : Type} (a : List α) (b : α) (c : List α) :
    (a ++ b :: c).eraseIdx a.length = a ++ c := by
  induction a with
  | nil => rfl
  | cons h t ih => simp [ih]

/-- The call `IntegrateDelete` with the id of a stored character of a document with
pairwise distinct ids tombstones that character and nothing else. -/
theorem IntegrateDelete_of_nodup (pre post : List Character) (x char : Character)
    (hid : char.ID = x.ID) (hnd : ((pre ++ x :: post).map Character.ID).Nodup) :
    Document.IntegrateDelete { Characters := pre ++ x :: post } char =
      { Characters := pre ++ x.tombstone :: post } := by
  unfold Document.IntegrateDelete
  simp only []
  rw [Position_of_nodup pre x post char.ID hid.symm hnd]
  have h1 : ¬ ((pre.length : Int) + 1 = -1) := by omega
  have h2 : ((pre.length : Int) + 1 - 1).toNat = pre.length := by omega
  rw [if_neg h1, h2, modify_append_cons]

/-- The call `IntegrateDelete` with an id that is not stored changes nothing. -/
theorem IntegrateDelete_absent (doc : Document) (char : Character)
    (h : ∀ c ∈ doc.Characters, c.ID ≠ char.ID) : doc.IntegrateDelete char = doc := by
  unfold Document.IntegrateDelete Document.Position
  simp only [Position_loop_miss char.ID doc.Characters 0 h, if_true]

/-- The call `Delete(p)` with `1 ≤ p ≤ N` on a well-formed document tombstones the
`p`-th visible character and nothing else. -/
theorem Delete_in_range_eq (doc : Document) (p : Int) (hwf : WellFormed doc)
    (h1 : 1 ≤ p) (h2 : p ≤ (VisibleLength doc : Int)) :
    ∃ pre x post, doc.Characters = pre ++ x :: post ∧ x.Visible = true ∧
      ((pre.filter Character.Visible).length : Int) = p - 1 ∧
      (doc.Delete p).1.Characters = pre ++ x.tombstone :: post := by
  obtain ⟨k, hk⟩ : ∃ k : Nat, p = (k : Int) + 1 := ⟨(p - 1).toNat, by omega⟩
  subst hk
  obtain ⟨pre, x, post, hl, hx, hn⟩ := exists_kth_visible doc.Characters k (by
    unfold VisibleLength at h2; omega)
  have hi : IthVisible doc ((k : Int) + 1) = x := by
    unfold IthVisible
    rw [hl]
    apply IthVisible_loop_hit _ _ _ _ _ hx
    rw [hn]; ring
  have hd : doc = { Characters := pre ++ x :: post } := by
    cases doc; simp only at hl; rw [hl]
  have hnd : ((pre ++ x :: post).map Character.ID).Nodup := by
    have := hwf.distinct
    unfold Document.ids at this
    rwa [hl] at this
  have hdel : (doc.Delete ((k : Int) + 1)).1 = { Characters := pre ++ x.tombstone :: post } := by
    unfold Document.Delete Document.GenerateDelete
    simp only [hi]
    rw [hd]
    exact IntegrateDelete_of_nodup pre post x x rfl hnd
  exact ⟨pre, x, post, hl, hx, by rw [hn]; ring, by rw [hdel]⟩

/-- The call `Delete(p)` with `p < 1` or `p > N` on a well-formed document changes
nothing. -/
theorem Delete_out_of_range_eq (doc : Document) (p : Int) (hwf : WellFormed doc)
    (h : p < 1 ∨ (VisibleLength doc : Int) < p) : (doc.Delete p).1 = doc := by
  have hn : IthVisible doc p = CharacterNone := by
    apply IthVisible_loop_none
    unfold VisibleLength at h
    rcases h with h | h
    · left; omega
    · right; omega
  unfold Document.Delete Document.GenerateDelete
  simp only [hn]
  exact IntegrateDelete_absent doc CharacterNone (fun c hc => hwf.noMinusOne c hc)

theorem VisibleValues_tombstone (pre post : List Character) (x : Character)
    (hx : x.Visible = true) :
    VisibleValues (pre ++ x.tombstone :: post) =
      (VisibleValues (pre ++ x :: post)).eraseIdx (pre.filter Character.Visible).length := by
  have hv1 : VisibleValues (pre ++ x.tombstone :: post)
      = VisibleValues pre ++ VisibleValues post := by
    simp [VisibleValues, List.filter_cons, Character.tombstone]
  have hv2 : VisibleValues (pre ++ x :: post)
      = VisibleValues pre ++ x.Value :: VisibleValues post := by
    simp [VisibleValues, List.filter_cons, hx]
  rw [hv1, hv2, ← VisibleValues_length, eraseIdx_append_cons]

/-- The visible values after `Delete(p)` on a well-formed document: the `p`-th is
removed when `1 ≤ p ≤ N`. -/
theorem VisibleValues_Delete (doc : Document) (p : Int) (hwf : WellFormed doc)
    (h1 : 1 ≤ p) (h2 : p ≤ (VisibleLength doc : Int)) :
    VisibleValues (doc.Delete p).1.Characters =
      (VisibleValues doc.Characters).eraseIdx (p - 1).toNat := by
  obtain ⟨pre, x, post, hl, hx, hn, hd⟩ := Delete_in_range_eq doc p hwf h1 h2
  have ht : (p - 1).toNat = (pre.filter Character.Visible).length := by omega
  rw [hd, hl, ht]
  exact VisibleValues_tombstone pre post x hx

/-- C2: on a well-formed document with `N` visible characters, `Delete(p)` with
`1 ≤ p ≤ N` clears `Visible` on exactly the `p`-th visible character (storage length,
order and every other field unchanged) and returns the old content without its
`p`-th visible value; with `p < 1` or `p > N` the document is unchanged and the
returned text is the old content. -/
theorem Delete_spec (doc : Document) (p : Int) (hwf : WellFormed doc) :
    (1 ≤ p ∧ p ≤ (VisibleLength doc : Int) →
      ∃ pre x post, doc.Characters = pre ++ x :: post ∧ x.Visible = true ∧
        ((pre.filter Character.Visible).length : Int) = p - 1 ∧
        (doc.Delete p).1.Characters = pre ++ x.tombstone :: post ∧
        (doc.Delete p).2 =
          ((VisibleValues doc.Characters).eraseIdx (p - 1).toNat).foldl (fun a b => a ++ b) "") ∧
    (p < 1 ∨ (VisibleLength doc : Int) < p →
      (doc.Delete p).1 = doc ∧ (doc.Delete p).2 = Content doc) := by
  have hc : (doc.Delete p).2 = Content (doc.Delete p).1 := rfl
  constructor
  · rintro ⟨h1, h2⟩
    obtain ⟨pre, x, post, hl, hx, hn, hd⟩ := Delete_in_range_eq doc p hwf h1 h2
    refine ⟨pre, x, post, hl, hx, hn, hd, ?_⟩
    rw [hc, Content_eq, VisibleValues_Delete doc p hwf h1 h2]
  · intro h
    have hdel := Delete_out_of_range_eq doc p hwf h
    exact ⟨hdel, by rw [hc, hdel]⟩

theorem docABC_reached :
    (((New.Insert { SiteID := 1, LocalClock := 0 } 1 "A").doc.Insert
      { SiteID := 1, LocalClock := 1 } 2 "B").doc.Insert
      { SiteID := 1, LocalClock := 2 } 3 "C").doc = docABC ∧
    (((New.Insert { SiteID := 1, LocalClock := 0 } 1 "A").doc.Insert
      { SiteID := 1, LocalClock := 1 } 2 "B").doc.Insert
      { SiteID := 1, LocalClock := 2 } 3 "C").text = "ABC" := by
  constructor <;> decide

theorem WellFormed_docABC : WellFormed docABC :=
  ⟨by decide, by decide, by decide, by decide⟩

/-- C2, witness: on the document with content "ABC", `Delete(2)` tombstones the
second visible character and returns "AC", and `Delete(4)` changes nothing. -/
theorem Delete_spec_witness :
    Content docABC = "ABC" ∧
    (∃ pre x post, docABC.Characters = pre ++ x :: post ∧ x.Visible = true ∧
        ((pre.filter Character.Visible).length : Int) = 2 - 1 ∧
        (docABC.Delete 2).1.Characters = pre ++ x.tombstone :: post ∧
        (docABC.Delete 2).2 =
          ((VisibleValues docABC.Characters).eraseIdx (2 - 1 : Int).toNat).foldl
            (fun a b => a ++ b) "") ∧
    (docABC.Delete 2).2 = "AC" ∧
    ((docABC.Delete 4).1 = docABC ∧ (docABC.Delete 4).2 = Content docABC) :=
  ⟨by decide, (Delete_spec docABC 2 WellFormed_docABC).1 ⟨by decide, by decide⟩, by decide,
    (Delete_spec docABC 4 WellFormed_docABC).2 (Or.inr (by decide))⟩

theorem WellFormed.sentinels {doc : Document} (hwf : WellFormed doc) :
    ∃ h mid e, doc.Characters = h :: mid ++ [e] ∧ h.ID = "start" ∧ h.Visible = false ∧
      e.ID = "end" ∧ e.Visible = false := by
  obtain ⟨h, t, hht, hhid, hhvis⟩ := hwf.head_eq
  obtain ⟨init, e, hie, heid, hevis⟩ := hwf.last_eq
  rcases List.eq_nil_or_concat t with ht | ⟨mid, y, ht⟩
  · rw [hht, ht] at hie
    have hlen := congrArg List.length hie
    simp only [List.length_cons, List.length_nil, List.length_append] at hlen
    have hin : init = [] := List.length_eq_zero.1 (by omega)
    rw [hin] at hie
    simp only [List.nil_append, List.cons.injEq, and_true] at hie
    rw [hie, heid] at hhid
    exact absurd hhid (by decide)
  · rw [List.concat_eq_append] at ht
    have hye : y = e := by
      have e2 : h :: (mid ++ [y]) = (h :: mid) ++ [y] := by simp
      rw [hht, ht, e2] at hie
      have := List.append_inj_right' hie rfl
      simpa using this
    exact ⟨h, mid, e, by rw [hht, ht, hye]; simp, hhid, hhvis, heid, hevis⟩

/-- C4 at its own witness: the two integration orders do not commute.  Replica A
stores Y before X and shows "YX", replica B stores X before Y and shows "XY";
neither call returns an error. -/
theorem IntegrateInsert_same_bounds_diverges :
    (New.IntegrateInsert charX CharacterStart CharacterEnd).2 = none ∧
    ((New.IntegrateInsert charX CharacterStart CharacterEnd).1.IntegrateInsert
      charY CharacterStart CharacterEnd).2 = none ∧
    (New.IntegrateInsert charY CharacterStart CharacterEnd).2 = none ∧
    ((New.IntegrateInsert charY CharacterStart CharacterEnd).1.IntegrateInsert
      charX CharacterStart CharacterEnd).2 = none ∧
    replicaA.ids = ["start", "21", "11", "end"] ∧
    replicaB.ids = ["start", "11", "21", "end"] ∧
    Content replicaA = "YX" ∧ Content replicaB = "XY" :=
  ⟨by decide, by decide, by decide, by decide, by decide, by decide, by decide, by decide⟩

/-! ## Character ids -/

/-- C6 fails on the code: site 1 at clock 11 and site 11 at clock 1 generate the same
id "111", and `GenerateInsert` stores exactly that id in both replicas. -/
theorem generatedID_collision :
    ((1 : Int), (11 : Int)) ≠ ((11 : Int), (1 : Int)) ∧
    generatedID 1 11 = "111" ∧ generatedID 11 1 = "111" ∧
    (New.Insert { SiteID := 1, LocalClock := 10 } 1 "a").doc.ids = ["start", "111", "end"] ∧
    (New.Insert { SiteID := 11, LocalClock := 0 } 1 "b").doc.ids = ["start", "111", "end"] :=
  ⟨by decide, by decide, by decide, by decide, by decide⟩

/-! ## Sentinel preservation -/

theorem head?_modify_tombstone (l : List Character) (i : Nat) (a b : String)
    (h : l.head?.map Character.core = some (a, false, b)) :
    (List.modify Character.tombstone i l).head?.map Character.core = some (a, false, b) := by
  cases l with
  | nil => simp at h
  | cons c cs =>
    cases i with
    | zero =>
      simp only [List.head?_cons, Option.map_some', Option.some.injEq, Character.core,
        Prod.mk.injEq] at h
      simp [Character.core, Character.tombstone, h.1, h.2.2]
    | succ i => simpa using h

theorem getLast?_modify_tombstone (l : List Character) (i : Nat) (a b : String)
    (h : l.getLast?.map Character.core = some (a, false, b)) :
    (List.modify Character.tombstone i l).getLast?.map Character.core = some (a, false, b) := by
  induction l generalizing i with
  | nil => simp at h
  | cons c cs ih =>
    cases cs with
    | nil =>
      cases i with
      | zero =>
        simp only [List.getLast?_singleton, Option.map_some', Option.some.injEq, Character.core,
          Prod.mk.injEq] at h
        simp [Character.core, Character.tombstone, h.1, h.2.2]
      | succ i => simpa using h
    | cons d ds =>
      cases i with
      | zero =>
        simp only [List.modify_zero_cons]
        rw [List.getLast?_cons_cons] at h ⊢
        exact h
      | succ i =>
        rw [List.getLast?_cons_cons] at h
        have h2 := ih i h
        rw [List.modify_succ_cons]
        cases hm : List.modify Character.tombstone i (d :: ds) with
        | nil =>
          have := congrArg List.length hm
          simp at this
        | cons u us =>
          rw [hm] at h2
          rw [List.getLast?_cons_cons]
          exact h2

theorem SentinelsInPlace_IntegrateDelete (doc : Document) (char : Character)
    (h : SentinelsInPlace doc) : SentinelsInPlace (doc.IntegrateDelete char) := by
  unfold Document.IntegrateDelete
  simp only []
  split
  · exact h
  · exact ⟨by simpa using h.1, head?_modify_tombstone _ _ _ _ h.2.1,
      getLast?_modify_tombstone _ _ _ _ h.2.2⟩

theorem SentinelsInPlace_LocalInsert (doc : Document) (char : Character) (position : Int)
    (h : SentinelsInPlace doc) : SentinelsInPlace (doc.LocalInsert char position).1 := by
  unfold Document.LocalInsert
  split
  · exact h
  · rename_i hpos
    split
    · exact h
    · obtain ⟨p, hp⟩ : ∃ p : Nat, position = (p : Int) := ⟨position.toNat, by omega⟩
      subst hp
      unfold Document.Length at hpos
      have hp0 : 0 < p := by omega
      have hpl : p < doc.Characters.length := by omega
      simp only [Int.toNat_ofNat]
      obtain ⟨h1, h2, h3⟩ := h
      refine ⟨by rw [spliceAt_length]; omega, ?_, ?_⟩
      · rw [← List.head?_map, spliceAt_core]
        rw [← List.head?_map] at h2
        cases hl : doc.Characters with
        | nil => rw [hl] at hpl; simp at hpl
        | cons c cs =>
          cases p with
          | zero => omega
          | succ p =>
            rw [hl] at h2
            simpa using h2
      · rw [← List.getLast?_map, spliceAt_core]
        rw [← List.getLast?_map] at h3
        have hd : doc.Characters.drop p ≠ [] := by
          intro e
          have := congrArg List.length e
          simp only [List.length_drop, List.length_nil] at this
          omega
        have e1 : doc.Characters.map Character.core =
            (doc.Characters.take p).map Character.core ++
              (doc.Characters.drop p).map Character.core := by
          rw [← List.map_append, List.take_append_drop]
        rw [e1, List.getLast?_append] at h3
        rw [List.getLast?_append, List.getLast?_cons]
        cases hl : (List.map Character.core (List.drop p doc.Characters)).getLast? with
        | none =>
          rw [List.getLast?_eq_none_iff] at hl
          simp only [List.map_eq_nil_iff] at hl
          exact absurd hl hd
        | some z =>
          rw [hl] at h3
          simpa using h3

theorem SentinelsInPlace_IntegrateInsertFuel (fuel : Nat) (doc : Document)
    (char charPrev charNext : Character) (h : SentinelsInPlace doc)
    (r : Document × Option CrdtError)
    (hr : doc.IntegrateInsertFuel fuel char charPrev charNext = some r) :
    SentinelsInPlace r.1 := by
  induction fuel generalizing charPrev charNext with
  | zero => simp [Document.IntegrateInsertFuel] at hr
  | succ n ih =>
    rw [Document.IntegrateInsertFuel] at hr
    split at hr
    · simp only [Option.some.injEq] at hr
      rw [← hr]; exact h
    · simp only [] at hr
      split at hr
      · simp only [Option.some.injEq] at hr
        rw [← hr]; exact SentinelsInPlace_LocalInsert _ _ _ h
      · split at hr
        · simp only [Option.some.injEq] at hr
          rw [← hr]; exact SentinelsInPlace_LocalInsert _ _ _ h
        · exact ih _ _ hr

theorem SentinelsInPlace_IntegrateInsert (doc : Document) (char charPrev charNext : Character)
    (h : SentinelsInPlace doc) :
    SentinelsInPlace (doc.IntegrateInsert char charPrev charNext).1 := by
  unfold Document.IntegrateInsert
  cases hr : doc.IntegrateInsertFuel (doc.Characters.length + 1) char charPrev charNext with
  | none => exact h
  | some r => exact SentinelsInPlace_IntegrateInsertFuel _ doc char charPrev charNext h r hr

theorem Insert_doc_eq (g : Globals) (doc : Document) (position : Int) (value : String) :
    (doc.Insert g position value).doc = (doc.GenerateInsert g position value).2.1 := by
  unfold Document.Insert
  split <;> rename_i h <;> rw [h]

/-- C8: if the sentinels are in place (first id `start`, last id `end`, both invisible
with empty value, length at least 2), they still are after any call of `Insert`,
`Delete`, `IntegrateInsert` or `IntegrateDelete`, with any arguments and whether or
not the call returns an error. -/
theorem Sentinel_preservation (doc : Document) (h : SentinelsInPlace doc) (g : Globals)
    (position : Int) (value : String) (char charPrev charNext : Character) :
    SentinelsInPlace (doc.Insert g position value).doc ∧
    SentinelsInPlace (doc.Delete position).1 ∧
    SentinelsInPlace (doc.IntegrateInsert char charPrev charNext).1 ∧
    SentinelsInPlace (doc.IntegrateDelete char) := by
  refine ⟨?_, ?_, SentinelsInPlace_IntegrateInsert doc char charPrev charNext h,
    SentinelsInPlace_IntegrateDelete doc char h⟩
  · rw [Insert_doc_eq, GenerateInsert_eq]
    exact SentinelsInPlace_IntegrateInsert doc _ _ _ h
  · exact SentinelsInPlace_IntegrateDelete doc _ h

theorem SentinelsInPlace_New : SentinelsInPlace New :=
  ⟨by decide, by decide, by decide⟩

/-- C8, witness: the sentinels of `New()` survive an out-of-range `Insert`, a
`Delete`, an `IntegrateInsert` with absent bounds and an `IntegrateDelete` of `start`. -/
theorem Sentinel_preservation_witness :
    SentinelsInPlace (New.Insert { SiteID := 0, LocalClock := 0 } 7 "A").doc ∧
    SentinelsInPlace (New.Delete 7).1 ∧
    SentinelsInPlace (New.IntegrateInsert CharacterStart CharacterNone CharacterZero).1 ∧
    SentinelsInPlace (New.IntegrateDelete CharacterStart) :=
  Sentinel_preservation New SentinelsInPlace_New { SiteID := 0, LocalClock := 0 } 7 "A"
    CharacterStart CharacterNone CharacterZero
/-! ## `IntegrateDelete` -/

theorem Position_loop_congr (id : String) (l l' : List Character) (k : Int)
    (h : l.map Character.ID = l'.map Character.ID) :
    Position.loop id l k = Position.loop id l' k := by
  induction l generalizing l' k with
  | nil =>
    cases l' with
    | nil => rfl
    | cons c cs => simp at h
  | cons c cs ih =>
    cases l' with
    | nil => simp at h
    | cons d ds =>
      simp only [List.map_cons, List.cons.injEq] at h
      simp only [Position.loop, h.1]
      rw [ih ds (k + 1) h.2]

/-- C9: `IntegrateDelete` is idempotent on every document and for every character,
and it returns the document unchanged when no stored character has the id. -/
theorem IntegrateDelete_idempotent (doc : Document) (char : Character) :
    (doc.IntegrateDelete char).IntegrateDelete char = doc.IntegrateDelete char ∧
    ((∀ c ∈ doc.Characters, c.ID ≠ char.ID) → doc.IntegrateDelete char = doc) := by
  refine ⟨?_, IntegrateDelete_absent doc char⟩
  by_cases hp : doc.Position char.ID = -1
  · have h1 : doc.IntegrateDelete char = doc := by
      unfold Document.IntegrateDelete
      simp only [hp, if_true]
    rw [h1, h1]
  · have h1 : doc.IntegrateDelete char =
        { Characters := List.modify Character.tombstone (doc.Position char.ID - 1).toNat
            doc.Characters } := by
      unfold Document.IntegrateDelete
      simp only [if_neg hp]
    have h2 : Document.Position (Document.mk (List.modify Character.tombstone
        (doc.Position char.ID - 1).toNat doc.Characters)) char.ID = doc.Position char.ID := by
      unfold Document.Position
      exact Position_loop_congr _ _ _ _
        (map_modify_of_fixed Character.ID Character.tombstone (fun x => rfl) _ _)
    rw [h1]
    unfold Document.IntegrateDelete
    simp only [h2, if_neg hp, List.modify_modify_eq]
    rfl

/-- C9, witness: on the document with content "ABC", deleting the character with id
"12" twice is deleting it once, and deleting the id "-1", which is not stored, does
nothing. -/
theorem IntegrateDelete_idempotent_witness :
    ((docABC.IntegrateDelete deleteRequest12).IntegrateDelete deleteRequest12 =
      docABC.IntegrateDelete deleteRequest12) ∧
    Content (docABC.IntegrateDelete deleteRequest12) = "AC" ∧
    docABC.IntegrateDelete CharacterNone = docABC :=
  ⟨(IntegrateDelete_idempotent docABC deleteRequest12).1, by decide,
    (IntegrateDelete_idempotent docABC CharacterNone).2 WellFormed_docABC.noMinusOne⟩

/-! ## The inbound handler of the client (`client/engine.go`, `handleMsg`) -/

theorem WellFormed_IntegrateDelete (doc : Document) (char : Character) (hwf : WellFormed doc) :
    WellFormed (doc.IntegrateDelete char) := by
  unfold Document.IntegrateDelete
  simp only []
  split
  · exact hwf
  · obtain ⟨⟨f1, f2⟩, ⟨l1, l2⟩, hd, hm⟩ := hwf
    have hids : ∀ i, (List.modify Character.tombstone i doc.Characters).map Character.ID
        = doc.Characters.map Character.ID :=
      fun i => map_modify_of_fixed Character.ID Character.tombstone (fun x => rfl) i _
    refine ⟨⟨?_, ?_⟩, ⟨?_, ?_⟩, ?_, ?_⟩
    · simp only []
      rw [← List.head?_map, hids, List.head?_map]; exact f1
    · simp only []
      cases hl : doc.Characters with
      | nil => rw [hl] at f2; simp at f2
      | cons c cs =>
        rw [hl] at f2
        generalize (doc.Position char.ID - 1).toNat = i
        cases i with
        | zero => simp [Character.tombstone]
        | succ i => simpa using f2
    · simp only []
      rw [← List.getLast?_map, hids, List.getLast?_map]; exact l1
    · simp only []
      generalize (doc.Position char.ID - 1).toNat = i
      have key : ∀ (l : List Character) (i : Nat),
          l.getLast?.map Character.Visible = some false →
          (List.modify Character.tombstone i l).getLast?.map Character.Visible = some false := by
        intro l
        induction l with
        | nil => intro i h; simp at h
        | cons c cs ih =>
          intro i h
          cases cs with
          | nil =>
            cases i with
            | zero => simp [Character.tombstone]
            | succ i => simpa using h
          | cons d ds =>
            cases i with
            | zero =>
              simp only [List.modify_zero_cons]
              rw [List.getLast?_cons_cons] at h ⊢
              exact h
            | succ i =>
              rw [List.getLast?_cons_cons] at h
              have h2 := ih i h
              rw [List.modify_succ_cons]
              cases hm : List.modify Character.tombstone i (d :: ds) with
              | nil =>
                have := congrArg List.length hm
                simp at this
              | cons u us =>
                rw [hm] at h2
                rw [List.getLast?_cons_cons]
                exact h2
      exact key _ _ l2
    · unfold Document.ids
      simp only []
      rw [hids]; exact hd
    · intro c hc
      simp only [] at hc
      have hmem : c.ID ∈ (List.modify Character.tombstone (doc.Position char.ID - 1).toNat
          doc.Characters).map Character.ID := List.mem_map_of_mem _ hc
      rw [hids] at hmem
      obtain ⟨d, hd1, hd2⟩ := List.mem_map.1 hmem
      rw [← hd2]
      exact hm d hd1

theorem WellFormed_Delete (doc : Document) (p : Int) (hwf : WellFormed doc) :
    WellFormed (doc.Delete p).1 :=
  WellFormed_IntegrateDelete doc _ hwf

theorem VisibleLength_eq (doc : Document) :
    VisibleLength doc = (VisibleValues doc.Characters).length := by
  rw [VisibleValues_length]; rfl

theorem handleOperation_delete (g : Globals) (doc : Document) (p : Int) :
    handleOperation g doc (deleteMessage p) = (g, (doc.Delete p).1) := by
  have h1 : ¬ (deleteMessage p).OpType = "insert" := by
    show ¬ "delete" = "insert"
    decide
  have h2 : (deleteMessage p).OpType = "delete" := rfl
  unfold handleOperation
  rw [if_neg h1, if_pos h2]
  rfl

/-- C10 fails as stated, at its own witness: on the document with content "ABC" the
first handling of the delete message with position 2 gives "AC", the second handling
of the same message gives "A". -/
theorem Delete_redelivery_counterexample :
    WellFormed docABC ∧ Content docABC = "ABC" ∧
    Content (handleOperation { SiteID := 1, LocalClock := 3 } docABC (deleteMessage 2)).2 = "AC" ∧
    Content (handleOperation { SiteID := 1, LocalClock := 3 }
      (handleOperation { SiteID := 1, LocalClock := 3 } docABC (deleteMessage 2)).2
      (deleteMessage 2)).2 = "A" :=
  ⟨WellFormed_docABC, by decide, by decide, by decide⟩

/-- C10, as the code behaves: on a well-formed document with `N` visible characters,
handling a delete message with position `p` a second time applies `Delete(p)` to the
document left by the first handling.  With `p < 1` or `p ≥ N` the second handling
leaves the document, and so the `Content`, as the first left it; with `1 ≤ p < N` it
tombstones one more visible character: the visible values are the old ones with the
`p`-th removed twice, one fewer than after the first handling. -/
theorem Delete_redelivery (g : Globals) (doc : Document) (p : Int) (hwf : WellFormed doc) :
    (p < 1 ∨ (VisibleLength doc : Int) ≤ p →
      (handleOperation g (handleOperation g doc (deleteMessage p)).2 (deleteMessage p)).2
          = (handleOperation g doc (deleteMessage p)).2 ∧
      Content (handleOperation g (handleOperation g doc (deleteMessage p)).2
          (deleteMessage p)).2
        = Content (handleOperation g doc (deleteMessage p)).2) ∧
    (1 ≤ p ∧ p < (VisibleLength doc : Int) →
      VisibleValues (handleOperation g (handleOperation g doc (deleteMessage p)).2
          (deleteMessage p)).2.Characters
        = ((VisibleValues doc.Characters).eraseIdx (p - 1).toNat).eraseIdx (p - 1).toNat ∧
      VisibleLength (handleOperation g (handleOperation g doc (deleteMessage p)).2
          (deleteMessage p)).2 + 1
        = VisibleLength (handleOperation g doc (deleteMessage p)).2) := by
  simp only [handleOperation_delete]
  have hwf1 := WellFormed_Delete doc p hwf
  have hlen1 : 1 ≤ p ∧ p ≤ (VisibleLength doc : Int) →
      (VisibleLength (doc.Delete p).1 : Int) = (VisibleLength doc : Int) - 1 := by
    rintro ⟨h1, h2⟩
    rw [VisibleLength_eq, VisibleValues_Delete doc p hwf h1 h2, List.length_eraseIdx,
      ← VisibleLength_eq]
    have : (p - 1).toNat < VisibleLength doc := by omega
    rw [if_pos this]
    omega
  constructor
  · intro h
    have hsame : ((doc.Delete p).1.Delete p).1 = (doc.Delete p).1 := by
      by_cases hin : 1 ≤ p ∧ p ≤ (VisibleLength doc : Int)
      · have := hlen1 hin
        exact Delete_out_of_range_eq (doc.Delete p).1 p hwf1 (Or.inr (by omega))
      · have hout : p < 1 ∨ (VisibleLength doc : Int) < p := by omega
        have hd := Delete_out_of_range_eq doc p hwf hout
        rw [hd, hd]
    exact ⟨hsame, by rw [hsame]⟩
  · rintro ⟨h1, h2⟩
    have hl := hlen1 ⟨h1, by omega⟩
    have hv2 := VisibleValues_Delete (doc.Delete p).1 p hwf1 h1 (by omega)
    refine ⟨by rw [hv2, VisibleValues_Delete doc p hwf h1 (by omega)], ?_⟩
    have hl2 : (VisibleLength ((doc.Delete p).1.Delete p).1 : Int)
        = (VisibleLength (doc.Delete p).1 : Int) - 1 := by
      rw [VisibleLength_eq, hv2, List.length_eraseIdx, ← VisibleLength_eq]
      have : (p - 1).toNat < VisibleLength (doc.Delete p).1 := by omega
      rw [if_pos this]
      omega
    omega

/-- C10, witness: on the document with content "ABC", re-delivery of the delete at
position 3 (the last visible position) changes nothing, and re-delivery of the delete
at position 2 removes "B" and then "C". -/
theorem Delete_redelivery_witness :
    Content (handleOperation { SiteID := 1, LocalClock := 3 }
        (handleOperation { SiteID := 1, LocalClock := 3 } docABC (deleteMessage 3)).2
        (deleteMessage 3)).2
      = Content (handleOperation { SiteID := 1, LocalClock := 3 } docABC (deleteMessage 3)).2 ∧
    VisibleValues (handleOperation { SiteID := 1, LocalClock := 3 }
        (handleOperation { SiteID := 1, LocalClock := 3 } docABC (deleteMessage 2)).2
        (deleteMessage 2)).2.Characters
      = ((VisibleValues docABC.Characters).eraseIdx (2 - 1 : Int).toNat).eraseIdx
          (2 - 1 : Int).toNat :=
  ⟨((Delete_redelivery { SiteID := 1, LocalClock := 3 } docABC 3 WellFormed_docABC).1
      (Or.inr (by decide))).2,
   ((Delete_redelivery { SiteID := 1, LocalClock := 3 } docABC 2 WellFormed_docABC).2
      ⟨by decide, by decide⟩).1⟩

/-! ## Decimal numerals -/

theorem digitChar_isDigit (d : Nat) (h : d < 10) : (Nat.digitChar d).isDigit = true := by
  interval_cases d <;> rfl

theorem toDigitsCore_isDigit (fuel n : Nat) (ds : List Char) :
    ∀ c ∈ Nat.toDigitsCore 10 fuel n ds, c ∈ ds ∨ c.isDigit = true := by
  induction fuel generalizing n ds with
  | zero => intro c hc; left; simpa [Nat.toDigitsCore] using hc
  | succ f ih =>
    intro c hc
    simp only [Nat.toDigitsCore] at hc
    split at hc
    · rcases List.mem_cons.1 hc with h | h
      · right; rw [h]; exact digitChar_isDigit _ (Nat.mod_lt _ (by decide))
      · left; exact h
    · rcases ih _ _ c hc with h | h
      · rcases List.mem_cons.1 h with h | h
        · right; rw [h]; exact digitChar_isDigit _ (Nat.mod_lt _ (by decide))
        · left; exact h
      · right; exact h

/-- Every character of the decimal numeral of a natural number is a digit. -/
theorem Nat_repr_isDigit (n : Nat) : ∀ c ∈ (Nat.repr n).data, c.isDigit = true := by
  intro c hc
  simp only [Nat.repr, Nat.toDigits, List.asString] at hc
  rcases toDigitsCore_isDigit _ _ _ c hc with h | h
  · simp at h
  · exact h

theorem Sprint_of_nonneg (n : Int) (h : 0 ≤ n) : Sprint n = Nat.repr n.natAbs := by
  unfold Sprint
  rw [if_neg (by omega)]

/-- The first character of an id generated at a non-negative site is a digit. -/
theorem generatedID_head (site clock : Int) (hs : 0 ≤ site) :
    ∃ c rest, (generatedID site clock).data = c :: rest ∧ c.isDigit = true := by
  unfold generatedID
  rw [String.data_append, Sprint_of_nonneg site hs]
  cases hd : (Nat.repr site.natAbs).data with
  | nil =>
    exact absurd (String.ext (by rw [hd]) : Nat.repr site.natAbs = "") (Nat_repr_ne_empty _)
  | cons c rest =>
    exact ⟨c, rest ++ (Sprint clock).data, rfl,
      Nat_repr_isDigit site.natAbs c (by rw [hd]; simp)⟩

theorem generatedID_ne_of_head (site clock : Int) (hs : 0 ≤ site) (s : String) (c : Char)
    (rest : List Char) (hsd : s.data = c :: rest) (hc : c.isDigit = false) :
    generatedID site clock ≠ s := by
  intro h
  obtain ⟨d, r, hd, hdig⟩ := generatedID_head site clock hs
  rw [h, hsd] at hd
  simp only [List.cons.injEq] at hd
  rw [hd.1, hdig] at hc
  exact absurd hc (by decide)

/-- The two bounds `GenerateInsert` chooses on a well-formed document are stored in
this order, whatever the position. -/
theorem insert_bounds_any (doc : Document) (hwf : WellFormed doc) (p : Int) :
    ∃ pre x mid y post, doc.Characters = pre ++ x :: mid ++ y :: post ∧
      prevBound doc p = x ∧ nextBound doc p = y := by
  by_cases hin : 1 ≤ p ∧ p ≤ (VisibleLength doc : Int) + 1
  · obtain ⟨k, hk⟩ : ∃ k : Nat, p = (k : Int) + 1 := ⟨(p - 1).toNat, by omega⟩
    subst hk
    obtain ⟨pre, x, mid, y, post, hl, hp, hn, _, _⟩ := insert_bounds doc hwf k (by omega)
    exact ⟨pre, x, mid, y, post, hl, hp, hn⟩
  · have h : p < 1 ∨ (VisibleLength doc : Int) + 1 < p := by omega
    obtain ⟨s, mid, e, hl, hsid, _, heid, _⟩ := hwf.sentinels
    refine ⟨[], s, mid, e, [], by rw [hl]; simp, ?_, ?_⟩
    · have hn : IthVisible doc (p - 1) = CharacterNone := by
        apply IthVisible_loop_none
        unfold VisibleLength at h
        rcases h with h | h
        · left; omega
        · right; omega
      unfold prevBound
      rw [hn, if_pos (by rfl)]
      unfold Document.Find
      rw [hl]
      simp [Find.loop, hsid]
    · have hn : IthVisible doc p = CharacterNone := by
        apply IthVisible_loop_none
        unfold VisibleLength at h
        rcases h with h | h
        · left; omega
        · right; omega
      unfold nextBound
      rw [hn, if_pos (by rfl)]
      exact hwf.find_end (s :: mid) e hl heid

/-- On a well-formed document `Insert` never fails: at every position it splices the
new character in at a storage index strictly inside the slice. -/
theorem Insert_splice (g : Globals) (doc : Document) (p : Int) (v : String)
    (hwf : WellFormed doc) :
    ∃ j, 0 < j ∧ j < doc.Characters.length ∧
      doc.Insert g p v =
        { globals := { g with LocalClock := wrapInt (g.LocalClock + 1) }
          doc := Document.mk (spliceAt doc.Characters (newCharacter g doc p v) j)
          text := Content (Document.mk (spliceAt doc.Characters (newCharacter g doc p v) j))
          err := none } := by
  obtain ⟨pre, x, mid, y, post, hl, hp, hn⟩ := insert_bounds_any doc hwf p
  have hI := Insert_between g doc p v pre mid post x y hl hwf.distinct (by rw [hp]) (by rw [hn])
  refine ⟨pre.length + 1 + placeIndex (newCharacter g doc p v).ID mid, by omega, ?_, hI⟩
  have := placeIndex_le (newCharacter g doc p v).ID mid
  rw [hl]
  simp only [List.length_cons, List.length_append]
  omega

theorem head?_take_cons_drop {α : Type} (l : List α) (x : α) (j : Nat) (h0 : 0 < j)
    (hl : 0 < l.length) : (l.take j ++ x :: l.drop j).head? = l.head? := by
  cases l with
  | nil => simp at hl
  | cons a as =>
    cases j with
    | zero => omega
    | succ j => simp

theorem getLast?_take_cons_drop {α : Type} (l : List α) (x : α) (j : Nat)
    (hj : j < l.length) : (l.take j ++ x :: l.drop j).getLast? = l.getLast? := by
  have hd : l.drop j ≠ [] := by
    intro e
    have := congrArg List.length e
    simp only [List.length_drop, List.length_nil] at this
    omega
  have e1 : l = l.take j ++ l.drop j := (List.take_append_drop j l).symm
  obtain ⟨z, hz⟩ : ∃ z, (l.drop j).getLast? = some z := by
    cases h : (l.drop j).getLast? with
    | none => exact absurd (List.getLast?_eq_none_iff.1 h) hd
    | some z => exact ⟨z, rfl⟩
  conv_rhs => rw [e1]
  rw [List.getLast?_append, List.getLast?_cons, List.getLast?_append, hz]
  simp

theorem spliceAt_map (f : Character → String) (l : List Character) (char : Character) (p : Nat)
    (h1 : ∀ id x, f (Character.withIDNext id x) = f x)
    (h2 : ∀ id x, f (Character.withIDPrevious id x) = f x) :
    (spliceAt l char p).map f = (l.map f).take p ++ f char :: (l.map f).drop p := by
  unfold spliceAt
  simp only []
  rw [map_modify_of_fixed f (Character.withIDPrevious char.ID) (h2 char.ID),
    map_modify_of_fixed f (Character.withIDNext char.ID) (h1 char.ID)]
  simp [List.map_take, List.map_drop]

theorem spliceAt_ids (l : List Character) (char : Character) (p : Nat) :
    (spliceAt l char p).map Character.ID =
      (l.map Character.ID).take p ++ char.ID :: (l.map Character.ID).drop p :=
  spliceAt_map Character.ID l char p (fun _ _ => rfl) (fun _ _ => rfl)

theorem spliceAt_ids_perm (l : List Character) (char : Character) (p : Nat) :
    ((spliceAt l char p).map Character.ID).Perm (char.ID :: l.map Character.ID) := by
  rw [spliceAt_ids]
  have h := @List.perm_middle _ char.ID ((l.map Character.ID).take p)
    ((l.map Character.ID).drop p)
  rw [List.take_append_drop] at h
  exact h

/-- Splicing a character with a fresh id other than "-1" strictly inside a
well-formed document leaves it well-formed. -/
theorem WellFormed_spliceAt (doc : Document) (char : Character) (j : Nat)
    (hwf : WellFormed doc) (h0 : 0 < j) (hj : j < doc.Characters.length)
    (hfresh : char.ID ∉ doc.ids) (hm : char.ID ≠ "-1") :
    WellFormed (Document.mk (spliceAt doc.Characters char j)) := by
  obtain ⟨⟨f1, f2⟩, ⟨l1, l2⟩, hd, hn⟩ := hwf
  have hvis : (spliceAt doc.Characters char j).map Character.Visible =
      (doc.Characters.map Character.Visible).take j ++ char.Visible ::
        (doc.Characters.map Character.Visible).drop j := by
    unfold spliceAt
    simp only []
    rw [map_modify_of_fixed Character.Visible (Character.withIDPrevious char.ID) (fun x => rfl),
      map_modify_of_fixed Character.Visible (Character.withIDNext char.ID) (fun x => rfl)]
    simp [List.map_take, List.map_drop]
  refine ⟨⟨?_, ?_⟩, ⟨?_, ?_⟩, ?_, ?_⟩
  · simp only []
    rw [← List.head?_map, spliceAt_ids, head?_take_cons_drop _ _ _ h0 (by simpa using (by omega : 0 < doc.Characters.length)),
      List.head?_map]
    exact f1
  · simp only []
    rw [← List.head?_map, hvis, head?_take_cons_drop _ _ _ h0 (by simpa using (by omega : 0 < doc.Characters.length)),
      List.head?_map]
    exact f2
  · simp only []
    rw [← List.getLast?_map, spliceAt_ids, getLast?_take_cons_drop _ _ _ (by simpa using hj),
      List.getLast?_map]
    exact l1
  · simp only []
    rw [← List.getLast?_map, hvis, getLast?_take_cons_drop _ _ _ (by simpa using hj),
      List.getLast?_map]
    exact l2
  · unfold Document.ids
    simp only []
    rw [(spliceAt_ids_perm doc.Characters char j).nodup_iff]
    exact List.nodup_cons.2 ⟨hfresh, hd⟩
  · intro c hc
    simp only [] at hc
    have hmem : c.ID ∈ (spliceAt doc.Characters char j).map Character.ID :=
      List.mem_map_of_mem _ hc
    rw [(spliceAt_ids_perm doc.Characters char j).mem_iff] at hmem
    rcases List.mem_cons.1 hmem with h | h
    · rw [h]; exact hm
    · obtain ⟨d, hd1, hd2⟩ := List.mem_map.1 h
      rw [← hd2]
      exact hn d hd1

/-! ## Id uniqueness inside one replica -/

theorem generatedID_ne_minus_one (site clock : Int) : generatedID site clock ≠ "-1" := by
  by_cases hs : 0 ≤ site
  · exact generatedID_ne_of_head site clock hs "-1" '-' ['1'] rfl (by decide)
  · intro h
    have h2 : (generatedID site clock).data.length = ("-1" : String).data.length := by rw [h]
    have h2b : (generatedID site clock).data.length
        = (Sprint site).data.length + (Sprint clock).data.length := by
      unfold generatedID
      rw [String.data_append, List.length_append]
    have h3 : 2 ≤ (Sprint site).data.length := by
      unfold Sprint
      rw [if_pos (by omega), String.data_append, List.length_append]
      have : (Nat.repr site.natAbs).data ≠ [] :=
        fun e => Nat_repr_ne_empty _ (String.ext e)
      have := List.length_pos.2 this
      have h1 : ("-" : String).data.length = 1 := rfl
      omega
    have h4 : 1 ≤ (Sprint clock).data.length := by
      have : (Sprint clock).data ≠ [] := fun e => Sprint_ne_empty _ (String.ext e)
      exact List.length_pos.2 this
    have h5 : ("-1" : String).data.length = 2 := rfl
    omega

/-- Handling one operation message edits the visible text at the position of the
message. -/
theorem handleOperation_values (g : Globals) (doc : Document) (op : Operation)
    (hwf : WellFormed doc) (hr : InsertInRange op (VisibleLength doc)) :
    VisibleValues (handleOperation g doc op).2.Characters =
      applyEdit op (VisibleValues doc.Characters) := by
  unfold handleOperation applyEdit
  by_cases hi : op.OpType = "insert"
  · rw [if_pos hi, if_pos hi]
    exact VisibleValues_Insert g doc _ _ hwf (hr hi).1 (hr hi).2
  · rw [if_neg hi, if_neg hi]
    by_cases hd : op.OpType = "delete"
    · rw [if_pos hd, if_pos hd, ← VisibleLength_eq]
      by_cases hin : 1 ≤ op.Position ∧ op.Position ≤ (VisibleLength doc : Int)
      · rw [if_pos hin]
        exact VisibleValues_Delete doc _ hwf hin.1 hin.2
      · rw [if_neg hin, Delete_out_of_range_eq doc _ hwf (by omega)]
    · rw [if_neg hd, if_neg hd]

/-- Handling one operation message keeps the document well-formed when the id an
insert generates is not stored yet. -/
theorem WellFormed_handleOperation (g : Globals) (doc : Document) (op : Operation)
    (hwf : WellFormed doc)
    (hf : generatedID g.SiteID (wrapInt (g.LocalClock + 1)) ∉ doc.ids) :
    WellFormed (handleOperation g doc op).2 := by
  unfold handleOperation
  by_cases hi : op.OpType = "insert"
  · rw [if_pos hi]
    obtain ⟨j, h0, hj, hI⟩ := Insert_splice g doc op.Position op.Value hwf
    simp only [hI]
    exact WellFormed_spliceAt doc _ j hwf h0 hj hf (generatedID_ne_minus_one _ _)
  · rw [if_neg hi]
    by_cases hd : op.OpType = "delete"
    · rw [if_pos hd]
      exact WellFormed_Delete doc _ hwf
    · rw [if_neg hd]
      exact hwf

/-- Handling two operation messages one after the other edits the visible text
twice, in the order of handling. -/
theorem handleOperation_twice_values (g : Globals) (doc : Document) (m1 m2 : Operation)
    (hwf : WellFormed doc)
    (hf : generatedID g.SiteID (wrapInt (g.LocalClock + 1)) ∉ doc.ids)
    (h1 : InsertInRange m1 (VisibleValues doc.Characters).length)
    (h2 : InsertInRange m2 (applyEdit m1 (VisibleValues doc.Characters)).length) :
    VisibleValues (handleOperation (handleOperation g doc m1).1 (handleOperation g doc m1).2
        m2).2.Characters =
      applyEdit m2 (applyEdit m1 (VisibleValues doc.Characters)) := by
  have hv1 := handleOperation_values g doc m1 hwf (by rw [VisibleLength_eq]; exact h1)
  have hwf1 := WellFormed_handleOperation g doc m1 hwf hf
  rw [handleOperation_values _ _ m2 hwf1 (by rw [VisibleLength_eq, hv1]; exact h2), hv1]

/-- C5 fails as stated: on `New()` the insert messages (1, "A") and (1, "B") give
"BA" when handled in this order and "AB" in the other order. -/
theorem Reordered_delivery_counterexample :
    WellFormed New ∧
    Content (handleOperation
      (handleOperation { SiteID := 1, LocalClock := 0 } New (insertMessage 1 "A")).1
      (handleOperation { SiteID := 1, LocalClock := 0 } New (insertMessage 1 "A")).2
      (insertMessage 1 "B")).2 = "BA" ∧
    Content (handleOperation
      (handleOperation { SiteID := 1, LocalClock := 0 } New (insertMessage 1 "B")).1
      (handleOperation { SiteID := 1, LocalClock := 0 } New (insertMessage 1 "B")).2
      (insertMessage 1 "A")).2 = "AB" :=
  ⟨WellFormed_New, by decide, by decide⟩

/-- C5, as the code behaves: the handler applies each operation message as a position
edit of the visible text at the moment of handling.  For a well-formed document, two
operation messages whose insert positions are in range when they are handled, and a
first generated id that is not stored yet, handling `m1` then `m2` yields the text
edited by `m1` then `m2`, handling `m2` then `m1` yields the text edited by `m2` then
`m1`, each `Content` is the string the respective edited text spells, and so the two
orders yield the same `Content` exactly when the two edited texts spell the same
string; in particular they do whenever the two edited texts are equal. -/
theorem Reordered_delivery (g : Globals) (doc : Document) (m1 m2 : Operation)
    (hwf : WellFormed doc)
    (hf : generatedID g.SiteID (wrapInt (g.LocalClock + 1)) ∉ doc.ids)
    (h1 : InsertInRange m1 (VisibleValues doc.Characters).length)
    (h2 : InsertInRange m2 (applyEdit m1 (VisibleValues doc.Characters)).length)
    (h3 : InsertInRange m2 (VisibleValues doc.Characters).length)
    (h4 : InsertInRange m1 (applyEdit m2 (VisibleValues doc.Characters)).length) :
    VisibleValues (handleOperation (handleOperation g doc m1).1 (handleOperation g doc m1).2
        m2).2.Characters =
      applyEdit m2 (applyEdit m1 (VisibleValues doc.Characters)) ∧
    VisibleValues (handleOperation (handleOperation g doc m2).1 (handleOperation g doc m2).2
        m1).2.Characters =
      applyEdit m1 (applyEdit m2 (VisibleValues doc.Characters)) ∧
    Content (handleOperation (handleOperation g doc m1).1 (handleOperation g doc m1).2 m2).2 =
      joinValues (applyEdit m2 (applyEdit m1 (VisibleValues doc.Characters))) ∧
    Content (handleOperation (handleOperation g doc m2).1 (handleOperation g doc m2).2 m1).2 =
      joinValues (applyEdit m1 (applyEdit m2 (VisibleValues doc.Characters))) ∧
    (Content (handleOperation (handleOperation g doc m1).1 (handleOperation g doc m1).2 m2).2 =
        Content (handleOperation (handleOperation g doc m2).1 (handleOperation g doc m2).2
          m1).2 ↔
      joinValues (applyEdit m2 (applyEdit m1 (VisibleValues doc.Characters))) =
        joinValues (applyEdit m1 (applyEdit m2 (VisibleValues doc.Characters)))) ∧
    (applyEdit m2 (applyEdit m1 (VisibleValues doc.Characters)) =
        applyEdit m1 (applyEdit m2 (VisibleValues doc.Characters)) →
      Content (handleOperation (handleOperation g doc m1).1 (handleOperation g doc m1).2 m2).2 =
        Content (handleOperation (handleOperation g doc m2).1 (handleOperation g doc m2).2
          m1).2) := by
  have a := handleOperation_twice_values g doc m1 m2 hwf hf h1 h2
  have b := handleOperation_twice_values g doc m2 m1 hwf hf h3 h4
  have ca : Content (handleOperation (handleOperation g doc m1).1
      (handleOperation g doc m1).2 m2).2 =
      joinValues (applyEdit m2 (applyEdit m1 (VisibleValues doc.Characters))) := by
    rw [Content_eq, a]; rfl
  have cb : Content (handleOperation (handleOperation g doc m2).1
      (handleOperation g doc m2).2 m1).2 =
      joinValues (applyEdit m1 (applyEdit m2 (VisibleValues doc.Characters))) := by
    rw [Content_eq, b]; rfl
  refine ⟨a, b, ca, cb, ?_, ?_⟩
  · rw [ca, cb]
  · intro hcomm
    rw [ca, cb, hcomm]

/-- C5, witness: on the document with content "ABC" the messages delete(1) and
insert(1, "A") commute as edits of the text, and both orders of handling give "ABC";
on `New()` the messages insert(1, "A") and insert(1, "AA") give the edited texts
"AA", "A" and "A", "AA", which differ and spell the same string, and both orders of
handling give the same `Content`. -/
theorem Reordered_delivery_witness :
    Content (handleOperation
      (handleOperation { SiteID := 1, LocalClock := 3 } docABC (deleteMessage 1)).1
      (handleOperation { SiteID := 1, LocalClock := 3 } docABC (deleteMessage 1)).2
      (insertMessage 1 "A")).2 =
    Content (handleOperation
      (handleOperation { SiteID := 1, LocalClock := 3 } docABC (insertMessage 1 "A")).1
      (handleOperation { SiteID := 1, LocalClock := 3 } docABC (insertMessage 1 "A")).2
      (deleteMessage 1)).2 ∧
    applyEdit (insertMessage 1 "AA") (applyEdit (insertMessage 1 "A") (VisibleValues New.Characters))
      ≠ applyEdit (insertMessage 1 "A") (applyEdit (insertMessage 1 "AA") (VisibleValues New.Characters)) ∧
    Content (handleOperation
      (handleOperation { SiteID := 1, LocalClock := 0 } New (insertMessage 1 "A")).1
      (handleOperation { SiteID := 1, LocalClock := 0 } New (insertMessage 1 "A")).2
      (insertMessage 1 "AA")).2 =
    Content (handleOperation
      (handleOperation { SiteID := 1, LocalClock := 0 } New (insertMessage 1 "AA")).1
      (handleOperation { SiteID := 1, LocalClock := 0 } New (insertMessage 1 "AA")).2
      (insertMessage 1 "A")).2 :=
  ⟨(Reordered_delivery { SiteID := 1, LocalClock := 3 } docABC (deleteMessage 1)
      (insertMessage 1 "A") WellFormed_docABC (by decide)
      (fun h => absurd h (by decide)) (fun _ => ⟨by decide, by decide⟩)
      (fun _ => ⟨by decide, by decide⟩) (fun h => absurd h (by decide))).2.2.2.2.2 (by decide),
    by decide,
    (Reordered_delivery { SiteID := 1, LocalClock := 0 } New (insertMessage 1 "A")
      (insertMessage 1 "AA") WellFormed_New (by decide)
      (fun _ => ⟨by decide, by decide⟩) (fun _ => ⟨by decide, by decide⟩)
      (fun _ => ⟨by decide, by decide⟩) (fun _ => ⟨by decide, by decide⟩)).2.2.2.2.1.2
      (by decide)⟩

/-! ## The recursion of `IntegrateInsert` ends -/

theorem Position_loop_le_of_mem (id : String) (pre : List Character) (x : Character)
    (post : List Character) (k : Int) (hx : x.ID = id) :
    k < Position.loop id (pre ++ x :: post) k ∧
      Position.loop id (pre ++ x :: post) k ≤ k + pre.length + 1 := by
  induction pre generalizing k with
  | nil => simp [Position.loop, hx]
  | cons c cs ih =>
    show k < Position.loop id (c :: (cs ++ x :: post)) k ∧
      Position.loop id (c :: (cs ++ x :: post)) k ≤ k + ((c :: cs).length : Nat) + 1
    simp only [Position.loop, List.length_cons]
    split
    · constructor <;> push_cast <;> omega
    · have := ih (k + 1)
      constructor <;> push_cast <;> omega

theorem Subseq_ok_cases (doc : Document) (cp cn : Character) (sub : List Character)
    (h : doc.Subseq cp cn = (sub, none)) :
    sub = [] ∨ ∃ s e : Nat, doc.Position cp.ID = (s : Int) ∧ doc.Position cn.ID = (e : Int) ∧
      1 ≤ s ∧ s < e ∧ e ≤ doc.Characters.length ∧ sub = slice doc.Characters s (e - 1) := by
  unfold Document.Subseq at h
  simp only [] at h
  split at h
  · simp at h
  · rename_i h1
    split at h
    · simp at h
    · rename_i h2
      split at h
      · left
        simp only [Prod.mk.injEq, and_true] at h
        exact h.symm
      · rename_i h3
        right
        have r1 := Position_loop_range cp.ID doc.Characters 0
        have r2 := Position_loop_range cn.ID doc.Characters 0
        have d1 : doc.Position cp.ID = Position.loop cp.ID doc.Characters 0 := rfl
        have d2 : doc.Position cn.ID = Position.loop cn.ID doc.Characters 0 := rfl
        rw [← d1] at r1
        rw [← d2] at r2
        refine ⟨(doc.Position cp.ID).toNat, (doc.Position cn.ID).toNat, by omega, by omega,
          by omega, by omega, by omega, ?_⟩
        simp only [Prod.mk.injEq, and_true] at h
        rw [← h]
        congr 1
        omega

theorem slice_getElem_position (doc : Document) (s e i : Nat) (hs : s < e)
    (he : e ≤ doc.Characters.length) (hi : i < (slice doc.Characters s (e - 1)).length) :
    (slice doc.Characters s (e - 1)).length = e - 1 - s ∧
    0 < doc.Position ((slice doc.Characters s (e - 1)).getD i CharacterZero).ID ∧
    doc.Position ((slice doc.Characters s (e - 1)).getD i CharacterZero).ID ≤ (s + i + 1 : Nat) := by
  have hlen : (slice doc.Characters s (e - 1)).length = e - 1 - s := by
    unfold slice
    rw [List.length_drop, List.length_take]
    omega
  refine ⟨hlen, ?_⟩
  rw [List.getD_eq_getElem _ _ hi]
  generalize hz : (slice doc.Characters s (e - 1))[i] = z
  have hsub : slice doc.Characters s (e - 1) =
      (slice doc.Characters s (e - 1)).take i ++ z ::
        (slice doc.Characters s (e - 1)).drop (i + 1) := by
    rw [← hz, ← List.drop_eq_getElem_cons hi, List.take_append_drop]
  have hl : doc.Characters = doc.Characters.take s ++ slice doc.Characters s (e - 1) ++
      doc.Characters.drop (e - 1) := by
    unfold slice
    have e1 : doc.Characters.take s = (doc.Characters.take (e - 1)).take s := by
      rw [List.take_take]
      congr 1
      omega
    rw [e1, List.take_append_drop, List.take_append_drop]
  have hl2 : doc.Characters =
      (doc.Characters.take s ++ (slice doc.Characters s (e - 1)).take i) ++ z ::
        ((slice doc.Characters s (e - 1)).drop (i + 1) ++ doc.Characters.drop (e - 1)) := by
    conv_lhs => rw [hl, hsub]
    simp
  have hA : (doc.Characters.take s ++ (slice doc.Characters s (e - 1)).take i).length = s + i := by
    rw [List.length_append, List.length_take, List.length_take]
    omega
  have key := Position_loop_le_of_mem z.ID
    (doc.Characters.take s ++ (slice doc.Characters s (e - 1)).take i) z
    ((slice doc.Characters s (e - 1)).drop (i + 1) ++ doc.Characters.drop (e - 1)) 0 rfl
  rw [← hl2, hA] at key
  unfold Document.Position
  constructor
  · exact key.1
  · have := key.2
    push_cast at this ⊢
    omega

/-- Every recursive call of `IntegrateInsert` lowers the position of its right
bound, so a depth of one more than that position is enough. -/
theorem IntegrateInsertFuel_isSome (doc : Document) (char : Character) (fuel : Nat)
    (cp cn : Character) (h : doc.Position cn.ID ≤ (fuel : Int)) :
    (doc.IntegrateInsertFuel (fuel + 1) char cp cn).isSome = true := by
  induction fuel generalizing cp cn with
  | zero =>
    rw [Document.IntegrateInsertFuel]
    cases hsub : doc.Subseq cp cn with
    | mk sub err =>
      cases err with
      | some e => rfl
      | none =>
        simp only []
        rcases Subseq_ok_cases doc cp cn sub hsub with h0 | ⟨s, e, _, he, _, _, _, _⟩
        · rw [h0]; rfl
        · rw [he] at h
          have : e = 0 := by exact_mod_cast (by omega : (e : Int) = 0)
          omega
  | succ n ih =>
    rw [Document.IntegrateInsertFuel]
    cases hsub : doc.Subseq cp cn with
    | mk sub err =>
      cases err with
      | some e => rfl
      | none =>
        simp only []
        split
        · rfl
        · rename_i hne0
          split
          · rfl
          · rename_i hne1
            apply ih
            rcases Subseq_ok_cases doc cp cn sub hsub with h0 | ⟨s, e, _, he, hs1, hse, hel, hsl⟩
            · rw [h0] at hne0; simp at hne0
            · have hne : sub.drop 1 ≠ [] := by
                intro e; have := congrArg List.length e; simp at this; omega
              have hw := walk_range char.ID (sub.drop 1) 1 hne
              simp only [List.length_drop] at hw
              generalize IntegrateInsert.walk char.ID (sub.drop 1) 1 = i at hw ⊢
              rw [hsl] at hw ⊢
              have hp := slice_getElem_position doc s e i hse hel (by omega)
              rw [he] at h
              have h3 := hp.2.2
              have h4 := hp.1
              push_cast at h3 h
              omega

/-- The method `IntegrateInsert` returns: the depth bound it is run with is never
reached. -/
theorem IntegrateInsert_total (doc : Document) (char cp cn : Character) :
    doc.IntegrateInsertFuel (doc.Characters.length + 1) char cp cn
      = some (doc.IntegrateInsert char cp cn) := by
  have hr := Position_loop_range cn.ID doc.Characters 0
  have h := IntegrateInsertFuel_isSome doc char doc.Characters.length cp cn (by
    unfold Document.Position; omega)
  unfold Document.IntegrateInsert
  cases hv : doc.IntegrateInsertFuel (doc.Characters.length + 1) char cp cn with
  | none => rw [hv] at h; simp at h
  | some r => rfl

/-! ## Run-time panics of `Left` and `Right` -/

/-- The method `Left` indexes the slice at `-1` whenever the id is not stored. -/
theorem Left_absent (doc : Document) (charID : String)
    (h : ∀ c ∈ doc.Characters, c.ID ≠ charID) : doc.Left charID = none := by
  unfold Document.Left Document.Position
  simp only [Position_loop_miss charID doc.Characters 0 h]
  rfl

/-- The method `ElementAt` never indexes out of range. -/
theorem ElementAt_isSome (doc : Document) (position : Int) :
    (doc.ElementAt position).isSome = true := by
  unfold Document.ElementAt Document.Length
  split
  · rfl
  · rename_i h
    unfold indexAt
    rw [if_neg (by omega)]
    have hlt : position.toNat < doc.Characters.length := by omega
    simp [List.getElem?_eq_getElem hlt]

/-- C11 fails on the code: `Left` with an id that is not stored indexes the slice at
`-1` (here on `New()`), and `Right` on the empty document indexes it at `-2`; both are
run-time panics.  On `New()`, `Right` with an id that is not stored returns the id of
the first character. -/
theorem Left_Right_panic :
    New.Left "zz" = none ∧
    (Document.mk []).Left "zz" = none ∧
    (Document.mk []).Right "zz" = none ∧
    New.Right "zz" = some "start" :=
  ⟨by decide, by decide, by decide, by decide⟩

/-! ## Errors of `IntegrateInsert` -/

theorem LocalInsert_error (doc : Document) (char : Character) (position : Int) :
    ((doc.LocalInsert char position).2 ≠ none → (doc.LocalInsert char position).1 = doc) ∧
    (char.ID = "" → (doc.LocalInsert char position).2 ≠ none) := by
  unfold Document.LocalInsert
  split
  · exact ⟨fun _ => rfl, fun _ => by simp⟩
  · split
    · exact ⟨fun _ => rfl, fun _ => by simp⟩
    · rename_i hid
      exact ⟨fun h => absurd rfl h, fun h => absurd h hid⟩

theorem IntegrateInsertFuel_error (doc : Document) (char : Character) (fuel : Nat)
    (cp cn : Character) (r : Document × Option CrdtError)
    (hr : doc.IntegrateInsertFuel fuel char cp cn = some r) :
    (r.2 ≠ none → r.1 = doc) ∧ (char.ID = "" → r.2 ≠ none) := by
  induction fuel generalizing cp cn with
  | zero => simp [Document.IntegrateInsertFuel] at hr
  | succ n ih =>
    rw [Document.IntegrateInsertFuel] at hr
    split at hr
    · simp only [Option.some.injEq] at hr
      rw [← hr]
      exact ⟨fun _ => rfl, fun _ => by simp⟩
    · simp only [] at hr
      split at hr
      · simp only [Option.some.injEq] at hr
        rw [← hr]; exact LocalInsert_error _ _ _
      · split at hr
        · simp only [Option.some.injEq] at hr
          rw [← hr]; exact LocalInsert_error _ _ _
        · exact ih _ _ hr

theorem IntegrateInsert_bounds_absent (doc : Document) (char cp cn : Character)
    (h : (∀ c ∈ doc.Characters, c.ID ≠ cp.ID) ∨ (∀ c ∈ doc.Characters, c.ID ≠ cn.ID)) :
    doc.IntegrateInsert char cp cn = (doc, some CrdtError.ErrBoundsNotPresent) := by
  have hs : doc.Subseq cp cn = (doc.Characters, some CrdtError.ErrBoundsNotPresent) := by
    unfold Document.Subseq Document.Position
    simp only []
    rw [if_pos]
    rcases h with h | h
    · left; exact Position_loop_miss _ _ _ h
    · right; exact Position_loop_miss _ _ _ h
  unfold Document.IntegrateInsert
  rw [Document.IntegrateInsertFuel]
  simp only [hs]
  rfl

/-- C12: `IntegrateInsert` returns the bounds-not-present error when the id of `cp` or
of `cn` is not stored, it returns an error when `c` has the empty id, and whenever it
returns an error the document is what it was before the call. -/
theorem IntegrateInsert_rejects (doc : Document) (char cp cn : Character) :
    ((∀ c ∈ doc.Characters, c.ID ≠ cp.ID) ∨ (∀ c ∈ doc.Characters, c.ID ≠ cn.ID) →
      doc.IntegrateInsert char cp cn = (doc, some CrdtError.ErrBoundsNotPresent)) ∧
    (char.ID = "" → (doc.IntegrateInsert char cp cn).2 ≠ none) ∧
    ((doc.IntegrateInsert char cp cn).2 ≠ none →
      (doc.IntegrateInsert char cp cn).1 = doc) := by
  have ht := IntegrateInsert_total doc char cp cn
  have he := IntegrateInsertFuel_error doc char _ cp cn _ ht
  exact ⟨IntegrateInsert_bounds_absent doc char cp cn, he.2, he.1⟩

/-- C12, witness: on the document with content "ABC", bounds with the id "-1" give
the bounds-not-present error, the empty id between `start` and `end` gives an error,
and the document is unchanged in that case. -/
theorem IntegrateInsert_rejects_witness :
    docABC.IntegrateInsert charX CharacterNone CharacterEnd
      = (docABC, some CrdtError.ErrBoundsNotPresent) ∧
    (docABC.IntegrateInsert CharacterZero CharacterStart CharacterEnd).2 ≠ none ∧
    (docABC.IntegrateInsert CharacterZero CharacterStart CharacterEnd).1 = docABC :=
  ⟨(IntegrateInsert_rejects docABC charX CharacterNone CharacterEnd).1
      (Or.inl WellFormed_docABC.noMinusOne),
    (IntegrateInsert_rejects docABC CharacterZero CharacterStart CharacterEnd).2.1 rfl,
    (IntegrateInsert_rejects docABC CharacterZero CharacterStart CharacterEnd).2.2
      ((IntegrateInsert_rejects docABC CharacterZero CharacterStart CharacterEnd).2.1 rfl)⟩

/-! ## The placement rule of `IntegrateInsert` -/

theorem getD_drop_one (S : List Character) (k : Nat) (d : Character) :
    (S.drop 1).getD k d = S.getD (k + 1) d := by
  rw [List.getD_eq_getElem?_getD, List.getD_eq_getElem?_getD, List.getElem?_drop,
    Nat.add_comm]

/-- What the walk of `IntegrateInsert` returns: every element it passed has an id
below the id of the character, and the element it stopped at, unless it is the last
one, has not. -/
theorem walk_spec (id : String) (r : List Character) (i0 : Nat) (hr : r ≠ []) :
    (∀ k, i0 ≤ k → k < IntegrateInsert.walk id r i0 →
      (r.getD (k - i0) CharacterZero).ID.toList < id.toList) ∧
    (IntegrateInsert.walk id r i0 + 1 < i0 + r.length →
      ¬ (r.getD (IntegrateInsert.walk id r i0 - i0) CharacterZero).ID.toList < id.toList) := by
  induction r generalizing i0 with
  | nil => exact absurd rfl hr
  | cons s t ih =>
    cases t with
    | nil =>
      simp only [IntegrateInsert.walk, List.length_singleton]
      exact ⟨fun k h1 h2 => by omega, fun h => by omega⟩
    | cons u v =>
      simp only [IntegrateInsert.walk]
      split
      · rename_i hlt
        obtain ⟨h1, h2⟩ := ih (i0 + 1) (by simp)
        have hw := walk_range id (u :: v) (i0 + 1) (by simp)
        constructor
        · intro k hk1 hk2
          rcases Nat.eq_or_lt_of_le hk1 with he | hl
          · rw [← he, Nat.sub_self, List.getD_cons_zero]
            exact hlt
          · have e : k - i0 = (k - (i0 + 1)) + 1 := by omega
            rw [e, List.getD_cons_succ]
            exact h1 k (by omega) hk2
        · intro hlen
          have e : IntegrateInsert.walk id (u :: v) (i0 + 1) - i0
              = (IntegrateInsert.walk id (u :: v) (i0 + 1) - (i0 + 1)) + 1 := by omega
          rw [e, List.getD_cons_succ]
          apply h2
          simp only [List.length_cons] at hlen ⊢
          omega
      · rename_i hlt
        constructor
        · intro k h1 h2; omega
        · intro _
          rw [Nat.sub_self, List.getD_cons_zero]
          exact hlt

/-- The index `placeIndex` in terms of the order of strings: it is the least index
from 1 on whose id is not below the id of the character, and the last index when
there is none. -/
theorem placeIndex_spec (id : String) (S : List Character) (h2 : 2 ≤ S.length) :
    1 ≤ placeIndex id S ∧ placeIndex id S ≤ S.length - 1 ∧
    (∀ k, 1 ≤ k → k < placeIndex id S → (S.getD k CharacterZero).ID < id) ∧
    (placeIndex id S < S.length - 1 → id ≤ (S.getD (placeIndex id S) CharacterZero).ID) := by
  have hne : S.drop 1 ≠ [] := by
    intro e; have := congrArg List.length e; simp at this; omega
  have hw := walk_range id (S.drop 1) 1 hne
  obtain ⟨w1, w2⟩ := walk_spec id (S.drop 1) 1 hne
  have hpi : placeIndex id S = IntegrateInsert.walk id (S.drop 1) 1 := by
    unfold placeIndex; rw [if_neg (by omega)]
  rw [← hpi] at hw w1 w2
  simp only [List.length_drop] at hw w2
  refine ⟨hw.1, by omega, ?_, ?_⟩
  · intro k hk1 hk2
    have := w1 k hk1 hk2
    rw [getD_drop_one, Nat.sub_add_cancel hk1] at this
    exact String.lt_iff_toList_lt.2 this
  · intro hlt
    have := w2 (by omega)
    rw [getD_drop_one, Nat.sub_add_cancel hw.1] at this
    exact not_lt.1 (fun h => this (String.lt_iff_toList_lt.1 h))

/-- C19: on a document with pairwise distinct ids in which `cp` is stored at index
`a = |pre|` and `cn` at index `b = |pre| + 1 + |S|`, with `S` the characters stored
strictly between them, `IntegrateInsert(c, cp, cn)` with a non-empty id of `c` returns
after at most one recursive call, without error, and the stored ids are the old ones
with the id of `c` inserted at one index `j`, `a < j ≤ b`.  `j = b` when `S` is empty,
`j = a + 1` when `S` has one element; otherwise `j = a + 1 + i` is the index of
`S[i]`, where `i` is the least index with `1 ≤ i ≤ |S| - 1` and `S[i].id ≥ c.id`, and
`i = |S| - 1` when there is no such index. -/
theorem IntegrateInsert_placement (pre S post : List Character) (x y c cp cn : Character)
    (hnd : ((pre ++ x :: S ++ y :: post).map Character.ID).Nodup)
    (hcp : cp.ID = x.ID) (hcn : cn.ID = y.ID) (hid : c.ID ≠ "") :
    ∃ j,
      Document.IntegrateInsertFuel 2 (Document.mk (pre ++ x :: S ++ y :: post)) c cp cn =
        some (Document.IntegrateInsert (Document.mk (pre ++ x :: S ++ y :: post)) c cp cn) ∧
      (Document.IntegrateInsert (Document.mk (pre ++ x :: S ++ y :: post)) c cp cn).2 = none ∧
      (Document.IntegrateInsert (Document.mk (pre ++ x :: S ++ y :: post)) c cp cn).1.ids =
        ((pre ++ x :: S ++ y :: post).map Character.ID).take j ++
          c.ID :: ((pre ++ x :: S ++ y :: post).map Character.ID).drop j ∧
      pre.length < j ∧ j ≤ pre.length + 1 + S.length ∧
      (S.length = 0 → j = pre.length + 1 + S.length) ∧
      (S.length = 1 → j = pre.length + 1) ∧
      (2 ≤ S.length → ∃ i, j = pre.length + 1 + i ∧ 1 ≤ i ∧ i ≤ S.length - 1 ∧
        ((∃ k, 1 ≤ k ∧ k ≤ S.length - 1 ∧ c.ID ≤ (S.getD k CharacterZero).ID) →
          c.ID ≤ (S.getD i CharacterZero).ID ∧
          ∀ k, 1 ≤ k → k < i → ¬ c.ID ≤ (S.getD k CharacterZero).ID) ∧
        ((¬ ∃ k, 1 ≤ k ∧ k ≤ S.length - 1 ∧ c.ID ≤ (S.getD k CharacterZero).ID) →
          i = S.length - 1)) := by
  have hF := IntegrateInsertFuel_between 0 pre S post x y c cp cn hnd hcp hcn hid
  have hI := IntegrateInsert_between pre S post x y c cp cn hnd hcp hcn hid
  have hle := placeIndex_le c.ID S
  refine ⟨pre.length + 1 + placeIndex c.ID S, ?_, ?_, ?_, by omega, by omega, ?_, ?_, ?_⟩
  · rw [hI]; exact hF
  · rw [hI]
  · rw [hI]; exact spliceAt_ids _ _ _
  · intro h0; omega
  · intro h1
    have : placeIndex c.ID S = 0 := by unfold placeIndex; rw [if_pos (by omega)]
    omega
  · intro h2
    obtain ⟨p1, p2, p3, p4⟩ := placeIndex_spec c.ID S h2
    refine ⟨placeIndex c.ID S, rfl, p1, p2, ?_, ?_⟩
    · rintro ⟨k0, hk1, hk2, hk3⟩
      constructor
      · rcases Nat.lt_or_ge (placeIndex c.ID S) (S.length - 1) with hlt | hge
        · exact p4 hlt
        · rcases Nat.lt_or_ge k0 (placeIndex c.ID S) with hlt2 | hge2
          · exact absurd hk3 (not_le.2 (p3 k0 hk1 hlt2))
          · have : k0 = placeIndex c.ID S := by omega
            rw [← this]; exact hk3
      · intro k hk1 hk2
        exact not_le.2 (p3 k hk1 hk2)
    · intro hno
      rcases Nat.lt_or_ge (placeIndex c.ID S) (S.length - 1) with hlt | hge
      · exact absurd ⟨placeIndex c.ID S, p1, p2, p4 hlt⟩ hno
      · omega

theorem doc357_ids_nodup : (doc357.Characters.map Character.ID).Nodup := by decide

/-- C19, witness: in the document with ids start, "3", "5", "7", end the character
with id "6" and bounds `start`, `end` passes "5" and is stored before "7", after one
recursive call. -/
theorem IntegrateInsert_placement_witness :
    (doc357.IntegrateInsert char6 CharacterStart CharacterEnd).1.ids
      = ["start", "3", "5", "6", "7", "end"] ∧
    ∃ j,
      Document.IntegrateInsertFuel 2 doc357 char6 CharacterStart CharacterEnd =
        some (doc357.IntegrateInsert char6 CharacterStart CharacterEnd) ∧
      (doc357.IntegrateInsert char6 CharacterStart CharacterEnd).2 = none ∧
      (doc357.IntegrateInsert char6 CharacterStart CharacterEnd).1.ids =
        (doc357.Characters.map Character.ID).take j ++
          char6.ID :: (doc357.Characters.map Character.ID).drop j ∧
      0 < j ∧ j ≤ 0 + 1 + mid357.length :=
  ⟨by decide,
    (IntegrateInsert_placement [] mid357 [] CharacterStart CharacterEnd char6 CharacterStart
      CharacterEnd doc357_ids_nodup rfl rfl (by decide)).imp
      (fun _ h => ⟨h.1, h.2.1, h.2.2.1, h.2.2.2.1, h.2.2.2.2.1⟩)⟩

/-! ## Termination of `IntegrateInsert` -/

/-- A call of `IntegrateInsert` that makes a recursive call returns what the
recursive call returns. -/
theorem IntegrateInsertFuel_recursive (doc : Document) (char cp cn a b : Character)
    (h : IntegrateInsert.recursiveBounds doc char cp cn = some (a, b)) (n : Nat) :
    doc.IntegrateInsertFuel (n + 1) char cp cn = doc.IntegrateInsertFuel n char a b := by
  unfold IntegrateInsert.recursiveBounds at h
  rw [Document.IntegrateInsertFuel]
  split at h
  · simp at h
  · rename_i sub hsub
    simp only [hsub]
    split at h
    · simp at h
    · rename_i h0
      split at h
      · simp at h
      · rename_i h1
        simp only [Option.some.injEq, Prod.mk.injEq] at h
        rw [if_neg h0, if_neg h1, h.1, h.2]

/-- The recursive call of `IntegrateInsert` has a right bound that is stored, at a
position below the position of the right bound of the call that makes it. -/
theorem recursiveBounds_position (doc : Document) (char cp cn a b : Character)
    (h : IntegrateInsert.recursiveBounds doc char cp cn = some (a, b)) :
    0 < doc.Position b.ID ∧ doc.Position b.ID < doc.Position cn.ID := by
  unfold IntegrateInsert.recursiveBounds at h
  split at h
  · simp at h
  · rename_i sub hsub
    split at h
    · simp at h
    · rename_i h0
      split at h
      · simp at h
      · rename_i h1
        simp only [Option.some.injEq, Prod.mk.injEq] at h
        rcases Subseq_ok_cases doc cp cn sub hsub with hnil | ⟨s, e, _, he, hs1, hse, hel, hsl⟩
        · rw [hnil] at h0; simp at h0
        · have hne : sub.drop 1 ≠ [] := by
            intro e; have := congrArg List.length e; simp at this; omega
          have hw := walk_range char.ID (sub.drop 1) 1 hne
          simp only [List.length_drop] at hw
          rw [← h.2]
          generalize IntegrateInsert.walk char.ID (sub.drop 1) 1 = i at hw ⊢
          rw [hsl] at hw ⊢
          have hp := slice_getElem_position doc s e i hse hel (by omega)
          have h3 := hp.2.2
          have h4 := hp.1
          rw [he]
          push_cast at h3 ⊢
          exact ⟨hp.2.1, by omega⟩

/-- On a document with pairwise distinct ids the recursive call of `IntegrateInsert`
has an empty subsequence, and the call that makes it one of at least two elements. -/
theorem recursiveBounds_of_nodup (doc : Document) (char cp cn a b : Character)
    (hnd : doc.ids.Nodup)
    (h : IntegrateInsert.recursiveBounds doc char cp cn = some (a, b)) :
    (doc.Subseq a b).1.length = 0 ∧ 2 ≤ (doc.Subseq cp cn).1.length := by
  unfold IntegrateInsert.recursiveBounds at h
  split at h
  · simp at h
  · rename_i sub hsub
    split at h
    · simp at h
    · rename_i h0
      split at h
      · simp at h
      · rename_i h1
        simp only [Option.some.injEq, Prod.mk.injEq] at h
        rw [hsub]
        refine ⟨?_, by simp only []; omega⟩
        rcases Subseq_ok_cases doc cp cn sub hsub with hnil | ⟨s, e, _, he, hs1, hse, hel, hsl⟩
        · rw [hnil] at h0; simp at h0
        · have hne : sub.drop 1 ≠ [] := by
            intro e; have := congrArg List.length e; simp at this; omega
          have hw := walk_range char.ID (sub.drop 1) 1 hne
          simp only [List.length_drop] at hw
          generalize IntegrateInsert.walk char.ID (sub.drop 1) 1 = i at hw h
          have hi1 : i - 1 < sub.length := by omega
          have hi2 : i < sub.length := by omega
          rw [List.getD_eq_getElem sub CharacterZero hi1] at h
          rw [List.getD_eq_getElem sub CharacterZero hi2] at h
          have hsplit : sub = sub.take (i - 1) ++ a :: b :: sub.drop (i + 1) := by
            have a1 : sub.drop (i - 1) = sub[i - 1] :: sub.drop (i - 1 + 1) :=
              List.drop_eq_getElem_cons hi1
            have a2 : sub.drop i = sub[i] :: sub.drop (i + 1) := List.drop_eq_getElem_cons hi2
            have a3 : i - 1 + 1 = i := by omega
            rw [a3, a2, h.1, h.2] at a1
            rw [← a1, List.take_append_drop]
          have hl : doc.Characters = doc.Characters.take s ++ sub ++
              doc.Characters.drop (e - 1) := by
            rw [hsl]
            unfold slice
            have e1 : doc.Characters.take s = (doc.Characters.take (e - 1)).take s := by
              rw [List.take_take]
              congr 1
              omega
            rw [e1, List.take_append_drop, List.take_append_drop]
          have hl2 : doc.Characters = (doc.Characters.take s ++ sub.take (i - 1)) ++ a :: [] ++
              b :: (sub.drop (i + 1) ++ doc.Characters.drop (e - 1)) := by
            conv_lhs => rw [hl, hsplit]
            simp
          have hd : doc = Document.mk ((doc.Characters.take s ++ sub.take (i - 1)) ++ a :: [] ++
              b :: (sub.drop (i + 1) ++ doc.Characters.drop (e - 1))) := by
            cases doc
            simp only at hl2
            rw [← hl2]
          have hnd2 : (((doc.Characters.take s ++ sub.take (i - 1)) ++ a :: [] ++
              b :: (sub.drop (i + 1) ++ doc.Characters.drop (e - 1))).map Character.ID).Nodup := by
            rw [← hl2]; exact hnd
          have hsb := Subseq_between _ [] _ a b a b hnd2 rfl rfl
          rw [← hd] at hsb
          rw [hsb]
          rfl

/-- C20 fails as stated on a document with a duplicate id: in the document with ids
a, z1, z2, z3, x, a, b, y the call with the bounds x, y has a subsequence of two
elements, its recursive call has the bounds a, b and a subsequence of five elements;
the call still returns. -/
theorem Subsequence_grows_counterexample :
    (docDuplicate.Subseq (charWithID "x") (charWithID "y")).1.length = 2 ∧
    IntegrateInsert.recursiveBounds docDuplicate (charWithID "c") (charWithID "x")
      (charWithID "y") = some (charWithID "a", charWithID "b") ∧
    (docDuplicate.Subseq (charWithID "a") (charWithID "b")).1.length = 5 ∧
    (docDuplicate.IntegrateInsert (charWithID "c") (charWithID "x") (charWithID "y")).2
      = none :=
  ⟨by decide, by decide, by decide, by decide⟩

/-- C20, as the code behaves: on every document, for every character and every pair
of bounds, `IntegrateInsert` returns a result within a recursion depth of the number
of stored characters plus one.  At every recursive call the right bound is stored at
a position strictly below the right bound of the calling call; the subsequence
between the bounds is strictly shorter when the ids are pairwise distinct. -/
theorem IntegrateInsert_terminates (doc : Document) (char cp cn : Character) :
    doc.IntegrateInsertFuel (doc.Characters.length + 1) char cp cn
      = some (doc.IntegrateInsert char cp cn) ∧
    (∀ a b, IntegrateInsert.recursiveBounds doc char cp cn = some (a, b) →
      (∀ n, doc.IntegrateInsertFuel (n + 1) char cp cn = doc.IntegrateInsertFuel n char a b) ∧
      0 < doc.Position b.ID ∧ doc.Position b.ID < doc.Position cn.ID ∧
      (doc.ids.Nodup → (doc.Subseq a b).1.length < (doc.Subseq cp cn).1.length)) := by
  refine ⟨IntegrateInsert_total doc char cp cn, ?_⟩
  intro a b h
  have hp := recursiveBounds_position doc char cp cn a b h
  refine ⟨IntegrateInsertFuel_recursive doc char cp cn a b h, hp.1, hp.2, ?_⟩
  intro hnd
  have := recursiveBounds_of_nodup doc char cp cn a b hnd h
  omega

/-- C20, witness: the call on the document with a duplicate id returns, and its
recursive call has a right bound at position 7, below position 8; on the document with
ids start, "3", "5", "7", end the recursive call has an empty subsequence. -/
theorem IntegrateInsert_terminates_witness :
    docDuplicate.IntegrateInsertFuel (docDuplicate.Characters.length + 1) (charWithID "c")
        (charWithID "x") (charWithID "y")
      = some (docDuplicate.IntegrateInsert (charWithID "c") (charWithID "x") (charWithID "y")) ∧
    (0 < docDuplicate.Position (charWithID "b").ID ∧
      docDuplicate.Position (charWithID "b").ID < docDuplicate.Position (charWithID "y").ID) ∧
    docDuplicate.Position (charWithID "b").ID = 7 ∧
    (doc357.Subseq (mid357.getD 1 CharacterZero) (mid357.getD 2 CharacterZero)).1.length
      < (doc357.Subseq CharacterStart CharacterEnd).1.length :=
  ⟨(IntegrateInsert_terminates docDuplicate (charWithID "c") (charWithID "x")
      (charWithID "y")).1,
    ⟨((IntegrateInsert_terminates docDuplicate (charWithID "c") (charWithID "x")
      (charWithID "y")).2 (charWithID "a") (charWithID "b") (by decide)).2.1,
     ((IntegrateInsert_terminates docDuplicate (charWithID "c") (charWithID "x")
      (charWithID "y")).2 (charWithID "a") (charWithID "b") (by decide)).2.2.1⟩,
    by decide,
    ((IntegrateInsert_terminates doc357 char6 CharacterStart CharacterEnd).2
      (mid357.getD 1 CharacterZero) (mid357.getD 2 CharacterZero) (by decide)).2.2.2
      doc357_ids_nodup⟩

/-! ## The user list of the server -/

/-- The text built by `sendUsernames`: every name is followed by a comma. -/
theorem sendUsernames_loop_data (roster : List client) (users : String) :
    (sendUsernames.loop roster users).data =
      users.data ++ (roster.map (fun c => c.Username.data ++ [','])).flatten := by
  induction roster generalizing users with
  | nil => simp [sendUsernames.loop]
  | cons c rest ih =>
    simp only [sendUsernames.loop, List.map_cons, List.flatten_cons]
    rw [ih, String.data_append, String.data_append]
    simp

/-- C16 fails on the code: for the roster U1, U2 the text of the users message is
"U1,U2," with a comma after the last name, and the split of the client on ","
yields the three names "U1", "U2" and "". -/
theorem sendUsernames_trailing_comma :
    (sendUsernames [{ SiteID := "1", id := 1, Username := "U1" },
      { SiteID := "2", id := 2, Username := "U2" }]).Text = "U1,U2," ∧
    stringsSplit (sendUsernames [{ SiteID := "1", id := 1, Username := "U1" },
      { SiteID := "2", id := 2, Username := "U2" }]).Text ',' = ["U1", "U2", ""] ∧
    stringsSplit "U1,U2" ',' = ["U1", "U2"] :=
  ⟨by decide, by decide, by decide⟩

/-! ## A snapshot addressed to nobody -/

/-- The call `broadcastOne` with a destination that is not the id of a roster entry
calls `send` on the nil pointer. -/
theorem broadcastOne_absent (list : List client) (writeFails : client → Bool) (msg : Message)
    (dst : UUID) (h : ∀ c ∈ list, c.id ≠ dst) :
    Clients.broadcastOne list writeFails msg dst = BroadcastOutcome.nilDereference := by
  have hg : Clients.get list dst = none := by
    unfold Clients.get
    rw [List.find?_eq_none]
    intro c hc
    simpa using h c hc
  unfold Clients.broadcastOne
  rw [hg]

/-- C17 fails on the code: with the roster holding only the client with id 1, relaying
a docSync message addressed to the id 2 calls `send` on the nil pointer, a run-time
panic; the same happens on the empty roster. -/
theorem broadcastOne_nil_dereference :
    Clients.broadcastOne [{ SiteID := "1", id := 1, Username := "U1" }] (fun _ => false)
      { MessageZero with MsgType := DocSyncMessage, ID := 2 } 2
      = BroadcastOutcome.nilDereference ∧
    Clients.broadcastOne [] (fun _ => false)
      { MessageZero with MsgType := DocSyncMessage, ID := 2 } 2
      = BroadcastOutcome.nilDereference :=
  ⟨by decide, by decide⟩

/-! ## The engine of the client -/

/-- C13 fails on the code for a character of more than one byte: with the text "ABC"
and the cursor at 1, the remote insert of "é" (one code point, two bytes) at position 1
gives the text "éABC" and moves the cursor by the byte length 2 to 3, not to 2.  At the
witness of the claim (cursor 3, "Z" at position 2) the text is "AZBC" and the cursor 4. -/
theorem remote_insert_cursor_bytes :
    ("é" : String).length = 1 ∧
    (handleMsg sampleExternals (operationMessage (insertMessage 1 "é")) (sampleState 1)).1.e.Text
      = "éABC".toList ∧
    (handleMsg sampleExternals (operationMessage (insertMessage 1 "é")) (sampleState 1)).1.e.Cursor
      = 3 ∧
    (handleMsg sampleExternals (operationMessage (insertMessage 2 "Z")) (sampleState 3)).1.e.Text
      = "AZBC".toList ∧
    (handleMsg sampleExternals (operationMessage (insertMessage 2 "Z")) (sampleState 3)).1.e.Cursor
      = 4 :=
  ⟨by decide, by decide, by decide, by decide, by decide⟩

/-- C14 fails on the code: with the cursor at 0 the local delete leaves the document
and the cursor as they are, but it moves the cursor entry of the peer "bob" from 3 to
2 and writes a delete message with position 0 on the connection. -/
theorem local_delete_at_zero :
    (performOperation sampleExternals false OperationDelete 'x' (sampleState 0)).1.doc = docABC ∧
    (performOperation sampleExternals false OperationDelete 'x' (sampleState 0)).1.e.Cursor = 0 ∧
    (sampleState 0).e.UsersPos "bob" = some { Pos := 3, Col := 0 } ∧
    (performOperation sampleExternals false OperationDelete 'x' (sampleState 0)).1.e.UsersPos "bob"
      = some { Pos := 2, Col := 0 } ∧
    (performOperation sampleExternals false OperationDelete 'x' (sampleState 0)).2
      = some { MessageZero with
          Username := "me", MsgType := "operation",
          Operation := { OpType := "delete", Position := 0, Value := "" } } :=
  ⟨by decide, by decide, by decide, by decide, by decide⟩

/-- The docSync case of `handleMsg` leaves the cursor where it is. -/
theorem handleMsg_docSync_cursor (ext : Externals) (msg : Message) (s : ClientState)
    (h : msg.MsgType = DocSyncMessage) :
    (handleMsg ext msg s).1.doc = msg.Document ∧
    (handleMsg ext msg s).1.e.Text = (Content msg.Document).toList ∧
    (handleMsg ext msg s).1.e.Cursor = s.e.Cursor := by
  unfold handleMsg
  rw [if_pos h]
  exact ⟨rfl, rfl, rfl⟩

/-- C15 fails on the code: with the cursor at 3 in the text "ABC", handling a docSync
message that carries `New()` installs the document and the empty text and leaves the
cursor at 3, above the visible length 0. -/
theorem docSync_keeps_cursor :
    (handleMsg sampleExternals { MessageZero with MsgType := DocSyncMessage, Document := New }
      (sampleState 3)).1.doc = New ∧
    (handleMsg sampleExternals { MessageZero with MsgType := DocSyncMessage, Document := New }
      (sampleState 3)).1.e.Text = [] ∧
    (handleMsg sampleExternals { MessageZero with MsgType := DocSyncMessage, Document := New }
      (sampleState 3)).1.e.Cursor = 3 ∧
    VisibleLength New = 0 :=
  ⟨by decide, by decide, by decide, by decide⟩

/-! ## A local edit and its operation message -/

theorem scroll_fields (ext : Externals) (e : Editor) (n : Int) :
    (e.scroll ext n).Text = e.Text ∧ (e.scroll ext n).Cursor = e.Cursor ∧
    (e.scroll ext n).IsConnected = e.IsConnected ∧ (e.scroll ext n).Username = e.Username := by
  unfold Editor.scroll
  simp only []
  split_ifs <;> exact ⟨rfl, rfl, rfl, rfl⟩

theorem MoveCursorHorizontal_fields (ext : Externals) (e : Editor) (x : Int) :
    (e.MoveCursorHorizontal ext x).Text = e.Text ∧
    (e.MoveCursorHorizontal ext x).IsConnected = e.IsConnected ∧
    (e.MoveCursorHorizontal ext x).Username = e.Username := by
  unfold Editor.MoveCursorHorizontal
  simp only []
  have hs := scroll_fields ext e (e.Cursor + x)
  split_ifs <;> first | exact ⟨rfl, rfl, rfl⟩ | exact ⟨hs.1, hs.2.2.1, hs.2.2.2⟩

/-- The cursor after `MoveCursor(x, 0)` when the new cursor stays inside the text. -/
theorem MoveCursorHorizontal_Cursor (ext : Externals) (e : Editor) (x : Int)
    (hne : e.Text.length ≠ 0) (h0 : 0 ≤ e.Cursor + x)
    (h1 : e.Cursor + x ≤ (e.Text.length : Int)) :
    (e.MoveCursorHorizontal ext x).Cursor = e.Cursor + x := by
  unfold Editor.MoveCursorHorizontal
  simp only []
  have hs := scroll_fields ext e (e.Cursor + x)
  rw [if_neg (fun h => hne h.1)]
  by_cases hsc : e.ScrollEnabled = true
  · simp only [hsc, if_true, hs.1]
    rw [if_neg (by omega), if_neg (by omega)]
  · simp only [hsc, Bool.false_eq_true, if_false]
    rw [if_neg (by omega), if_neg (by omega)]

theorem foldl_append_data (l : List String) (acc : String) :
    (l.foldl (fun a b => a ++ b) acc).data = acc.data ++ (l.map String.data).flatten := by
  induction l generalizing acc with
  | nil => simp
  | cons v vs ih =>
    simp only [List.foldl_cons, List.map_cons, List.flatten_cons]
    rw [ih, String.data_append, List.append_assoc]

theorem map_singleton_flatten (l : List String) (h : ∀ v ∈ l, v.length = 1) :
    ((l.map String.data).flatten).map String.singleton = l ∧
    ((l.map String.data).flatten).length = l.length := by
  induction l with
  | nil => exact ⟨rfl, rfl⟩
  | cons v vs ih =>
    have hv : v.length = 1 := h v (List.mem_cons_self _ _)
    obtain ⟨i1, i2⟩ := ih (fun w hw => h w (List.mem_cons_of_mem _ hw))
    obtain ⟨c, hc⟩ : ∃ c, v.data = [c] := by
      have : v.data.length = 1 := hv
      match hd : v.data, this with
      | [c], _ => exact ⟨c, rfl⟩
    have hvs : String.singleton c = v := by
      apply String.ext
      rw [hc]
      rfl
    simp only [List.map_cons, List.flatten_cons, hc, List.singleton_append, List.length_cons]
    exact ⟨by rw [i1, hvs], by rw [i2]⟩

/-- The content of a document whose visible values are single code points determines
the visible values, and has as many code points as there are visible characters. -/
theorem SingleRunes_Content (doc : Document) (h : SingleRunes doc) :
    (Content doc).data.map String.singleton = VisibleValues doc.Characters ∧
    (Content doc).data.length = VisibleLength doc := by
  have hd : (Content doc).data = ((VisibleValues doc.Characters).map String.data).flatten := by
    rw [Content_eq, foldl_append_data]
    rfl
  have hm := map_singleton_flatten (VisibleValues doc.Characters) h
  rw [hd, VisibleLength_eq]
  exact hm

theorem VisibleValues_eq_of_Content (A B : Document) (hA : SingleRunes A) (hB : SingleRunes B)
    (h : Content A = Content B) : VisibleValues A.Characters = VisibleValues B.Characters := by
  rw [← (SingleRunes_Content A hA).1, ← (SingleRunes_Content B hB).1, h]

theorem SingleRunes_Insert (g : Globals) (doc : Document) (p : Int) (Ch : Char)
    (hwf : WellFormed doc) (hs : SingleRunes doc) (h1 : 1 ≤ p)
    (h2 : p ≤ (VisibleLength doc : Int) + 1) :
    SingleRunes (doc.Insert g p (String.singleton Ch)).doc := by
  unfold SingleRunes
  rw [VisibleValues_Insert g doc p _ hwf h1 h2]
  intro v hv
  rcases List.mem_append.1 hv with h | h
  · exact hs v (List.mem_of_mem_take h)
  · rcases List.mem_cons.1 h with h | h
    · rw [h]; rfl
    · exact hs v (List.mem_of_mem_drop h)

/-- The document after the operation case of `handleMsg`. -/
theorem handleMsg_operation_doc (ext : Externals) (msg : Message) (s : ClientState)
    (h : msg.MsgType = "operation") :
    (handleMsg ext msg s).1.doc = (handleOperation s.globals s.doc msg.Operation).2 := by
  unfold handleMsg handleOperation
  rw [h]
  rw [if_neg (by decide), if_neg (by decide), if_neg (by decide), if_neg (by decide),
    if_neg (by decide)]
  split_ifs <;> rfl

theorem performOperation_write (writeFails : Bool) (step : ClientState × Message)
    (h : step.1.e.IsConnected = true) :
    (performOperation.write writeFails step).2 = some step.2 ∧
    (performOperation.write writeFails step).1.doc = step.1.doc := by
  unfold performOperation.write
  rw [if_pos h]
  cases writeFails <;> exact ⟨rfl, rfl⟩

/-- The local insert of `performOperation` on a connected client with the cursor
inside the text: the message it writes and the document it leaves. -/
theorem performOperation_insert (ext : Externals) (writeFails : Bool) (Ch : Char)
    (s : ClientState) (hwf : WellFormed s.doc) (hs : SingleRunes s.doc)
    (h0 : 0 ≤ s.e.Cursor) (h1 : s.e.Cursor ≤ (VisibleLength s.doc : Int))
    (hconn : s.e.IsConnected = true) :
    (performOperation ext writeFails OperationInsert Ch s).2 =
      some (operationMessageOf s.e.Username
        (insertMessage (s.e.Cursor + 1) (String.singleton Ch))) ∧
    (performOperation ext writeFails OperationInsert Ch s).1.doc =
      (s.doc.Insert s.globals (s.e.Cursor + 1) (String.singleton Ch)).doc := by
  have hsr := SingleRunes_Insert s.globals s.doc (s.e.Cursor + 1) Ch hwf hs (by omega) (by omega)
  have hlen := (SingleRunes_Content _ hsr).2
  have hvl : VisibleLength (s.doc.Insert s.globals (s.e.Cursor + 1) (String.singleton Ch)).doc
      = VisibleLength s.doc + 1 := by
    rw [VisibleLength_eq, VisibleValues_Insert s.globals s.doc _ _ hwf (by omega) (by omega),
      VisibleLength_eq]
    simp only [List.length_append, List.length_cons, List.length_take, List.length_drop]
    have := VisibleLength_eq s.doc
    omega
  have htext : (s.doc.Insert s.globals (s.e.Cursor + 1) (String.singleton Ch)).text.toList.length
      = VisibleLength s.doc + 1 := by
    rw [Insert_text_eq]
    exact hlen.trans hvl
  have p1 : (performOperation.insert ext (String.singleton Ch) s).1.doc =
      (s.doc.Insert s.globals (s.e.Cursor + 1) (String.singleton Ch)).doc := rfl
  have p2 : (performOperation.insert ext (String.singleton Ch) s).2 =
      operationMessageOf
        ((s.e.SetText (s.doc.Insert s.globals (s.e.Cursor + 1)
          (String.singleton Ch)).text).MoveCursorHorizontal ext 1).Username
        (insertMessage
          ((s.e.SetText (s.doc.Insert s.globals (s.e.Cursor + 1)
            (String.singleton Ch)).text).MoveCursorHorizontal ext 1).Cursor
          (String.singleton Ch)) := rfl
  have p3 : (performOperation.insert ext (String.singleton Ch) s).1.e.IsConnected =
      ((s.e.SetText (s.doc.Insert s.globals (s.e.Cursor + 1)
        (String.singleton Ch)).text).MoveCursorHorizontal ext 1).IsConnected := rfl
  have hmf := MoveCursorHorizontal_fields ext (s.e.SetText (s.doc.Insert s.globals
    (s.e.Cursor + 1) (String.singleton Ch)).text) 1
  have hcur : ((s.e.SetText (s.doc.Insert s.globals (s.e.Cursor + 1)
      (String.singleton Ch)).text).MoveCursorHorizontal ext 1).Cursor = s.e.Cursor + 1 := by
    apply MoveCursorHorizontal_Cursor
    · show (s.doc.Insert s.globals (s.e.Cursor + 1) (String.singleton Ch)).text.toList.length ≠ 0
      omega
    · show 0 ≤ s.e.Cursor + 1
      omega
    · show s.e.Cursor + 1 ≤
        ((s.doc.Insert s.globals (s.e.Cursor + 1) (String.singleton Ch)).text.toList.length : Int)
      rw [htext]; push_cast; omega
  have hun : ((s.e.SetText (s.doc.Insert s.globals (s.e.Cursor + 1)
      (String.singleton Ch)).text).MoveCursorHorizontal ext 1).Username = s.e.Username :=
    hmf.2.2
  have hw := performOperation_write writeFails
    (performOperation.insert ext (String.singleton Ch) s) (by rw [p3, hmf.2.1]; exact hconn)
  unfold performOperation
  rw [if_pos rfl, hw.1, hw.2, p1, p2, hun, hcur]
  exact ⟨rfl, rfl⟩

/-- The local delete of `performOperation` on a connected client with a
non-negative cursor: the message it writes and the document it leaves. -/
theorem performOperation_delete (ext : Externals) (writeFails : Bool) (Ch : Char)
    (s : ClientState) (h0 : 0 ≤ s.e.Cursor) (hconn : s.e.IsConnected = true) :
    (performOperation ext writeFails OperationDelete Ch s).2 =
      some (operationMessageOf s.e.Username (deleteMessage s.e.Cursor)) ∧
    (performOperation ext writeFails OperationDelete Ch s).1.doc =
      (s.doc.Delete s.e.Cursor).1 := by
  have he0 : (if s.e.Cursor - 1 < 0 then { s.e with Cursor := 0 } else s.e) = s.e := by
    split
    · have : s.e.Cursor = 0 := by omega
      cases hse : s.e
      rw [hse] at this
      simp only at this
      rw [this]
    · rfl
  have p1 : (performOperation.delete ext s).1.doc =
      (s.doc.Delete (if s.e.Cursor - 1 < 0 then { s.e with Cursor := 0 } else s.e).Cursor).1 := rfl
  have p2 : (performOperation.delete ext s).2 =
      operationMessageOf (if s.e.Cursor - 1 < 0 then { s.e with Cursor := 0 } else s.e).Username
        (deleteMessage (if s.e.Cursor - 1 < 0 then { s.e with Cursor := 0 } else s.e).Cursor) :=
    rfl
  have p3 : (performOperation.delete ext s).1.e.IsConnected =
      (if s.e.Cursor - 1 < 0 then { s.e with Cursor := 0 } else s.e).IsConnected := by
    unfold performOperation.delete
    simp only []
    rw [(MoveCursorHorizontal_fields ext _ (-1)).2.1]
    rfl
  rw [he0] at p1 p2 p3
  have hw := performOperation_write writeFails (performOperation.delete ext s)
    (by rw [p3]; exact hconn)
  unfold performOperation
  have hne : ¬ OperationDelete = OperationInsert := by decide
  rw [if_neg hne, if_pos rfl, hw.1, hw.2, p1, p2]
  exact ⟨rfl, rfl⟩

theorem handleOperation_insert (g : Globals) (doc : Document) (p : Int) (v : String) :
    (handleOperation g doc (insertMessage p v)).2 = (doc.Insert g p v).doc := by
  have h : (insertMessage p v).OpType = "insert" := rfl
  unfold handleOperation
  rw [if_pos h]
  rfl

theorem WellFormed_docAB1 : WellFormed docAB1 :=
  ⟨by decide, by decide, by decide, by decide⟩

theorem WellFormed_docAB2 : WellFormed docAB2 :=
  ⟨by decide, by decide, by decide, by decide⟩

/-- C18 fails as stated for documents with equal content and different visible
values: replica A shows "AB" as one visible character, replica B as two.  With the
cursor at 1, the local insert of "X" in A gives "ABX" and writes an insert message
with position 2; B handles it and shows "AXB". -/
theorem local_edit_counterexample :
    WellFormed docAB1 ∧ WellFormed docAB2 ∧ Content docAB1 = Content docAB2 ∧
    (1 : Int) ≤ (VisibleLength docAB1 : Int) ∧
    (performOperation sampleExternals false OperationInsert 'X' (stateOf docAB1 1 1)).2
      = some (operationMessageOf "me" (insertMessage 2 "X")) ∧
    Content (performOperation sampleExternals false OperationInsert 'X'
      (stateOf docAB1 1 1)).1.doc = "ABX" ∧
    Content (handleMsg sampleExternals (operationMessageOf "me" (insertMessage 2 "X"))
      (stateOf docAB2 2 0)).1.doc = "AXB" :=
  ⟨WellFormed_docAB1, WellFormed_docAB2, by decide, by decide, by decide, by decide, by decide⟩

/-- C18, as the code behaves: for two well-formed documents A and B with equal
`Content` whose visible values are single code points, a cursor `c` of A's client with
`0 ≤ c ≤` visible length and a connected client: (i) the local insert of the rune `Ch`
writes an operation message of type insert with value `Ch` and position `c + 1`, and
after B's client handles that message the contents of A and B are equal; (ii) the
local delete writes an operation message of type delete with position `c`, and after
B's client handles it the contents of A and B are equal. -/
theorem local_edit_in_step (ext : Externals) (writeFails : Bool) (Ch : Char)
    (sA sB : ClientState) (hA : WellFormed sA.doc) (hB : WellFormed sB.doc)
    (hsA : SingleRunes sA.doc) (hsB : SingleRunes sB.doc)
    (hc : Content sA.doc = Content sB.doc) (h0 : 0 ≤ sA.e.Cursor)
    (h1 : sA.e.Cursor ≤ (VisibleLength sA.doc : Int)) (hconn : sA.e.IsConnected = true) :
    (∃ msg, (performOperation ext writeFails OperationInsert Ch sA).2 = some msg ∧
      msg.MsgType = "operation" ∧
      msg.Operation = insertMessage (sA.e.Cursor + 1) (String.singleton Ch) ∧
      Content (performOperation ext writeFails OperationInsert Ch sA).1.doc =
        Content (handleMsg ext msg sB).1.doc) ∧
    (∃ msg, (performOperation ext writeFails OperationDelete Ch sA).2 = some msg ∧
      msg.MsgType = "operation" ∧
      msg.Operation = deleteMessage sA.e.Cursor ∧
      Content (performOperation ext writeFails OperationDelete Ch sA).1.doc =
        Content (handleMsg ext msg sB).1.doc) := by
  have hvv := VisibleValues_eq_of_Content sA.doc sB.doc hsA hsB hc
  have hN : VisibleLength sB.doc = VisibleLength sA.doc := by
    rw [VisibleLength_eq, VisibleLength_eq, hvv]
  constructor
  · obtain ⟨i1, i2⟩ := performOperation_insert ext writeFails Ch sA hA hsA h0 h1 hconn
    refine ⟨_, i1, rfl, rfl, ?_⟩
    rw [i2, handleMsg_operation_doc ext _ sB rfl]
    show Content _ = Content (handleOperation sB.globals sB.doc
      (insertMessage (sA.e.Cursor + 1) (String.singleton Ch))).2
    rw [handleOperation_insert, Content_eq, Content_eq,
      VisibleValues_Insert sA.globals sA.doc _ _ hA (by omega) (by omega),
      VisibleValues_Insert sB.globals sB.doc _ _ hB (by omega) (by omega), hvv]
  · obtain ⟨d1, d2⟩ := performOperation_delete ext writeFails Ch sA h0 hconn
    refine ⟨_, d1, rfl, rfl, ?_⟩
    rw [d2, handleMsg_operation_doc ext _ sB rfl]
    show Content _ = Content (handleOperation sB.globals sB.doc (deleteMessage sA.e.Cursor)).2
    rw [handleOperation_delete]
    by_cases hpos : 1 ≤ sA.e.Cursor
    · rw [Content_eq, Content_eq, VisibleValues_Delete sA.doc _ hA hpos h1,
        VisibleValues_Delete sB.doc _ hB hpos (by omega), hvv]
    · rw [Delete_out_of_range_eq sA.doc _ hA (Or.inl (by omega)),
        Delete_out_of_range_eq sB.doc _ hB (Or.inl (by omega))]
      exact hc

theorem SingleRunes_docABC : SingleRunes docABC := by
  intro v hv
  have h : v ∈ ["A", "B", "C"] := hv
  simp only [List.mem_cons, List.mem_singleton, List.not_mem_nil, or_false] at h
  rcases h with h | h | h <;> rw [h] <;> rfl

/-- C18, witness: two clients that both hold the document with content "ABC", the
first with the cursor at 1: its local insert of "X" and its local delete each write a
message after which the second client has the same content. -/
theorem local_edit_in_step_witness :
    (∃ msg, (performOperation sampleExternals false OperationInsert 'X' (sampleState 1)).2
        = some msg ∧
      msg.MsgType = "operation" ∧
      msg.Operation = insertMessage ((sampleState 1).e.Cursor + 1) (String.singleton 'X') ∧
      Content (performOperation sampleExternals false OperationInsert 'X' (sampleState 1)).1.doc =
        Content (handleMsg sampleExternals msg (sampleState 3)).1.doc) ∧
    (∃ msg, (performOperation sampleExternals false OperationDelete 'X' (sampleState 1)).2
        = some msg ∧
      msg.MsgType = "operation" ∧
      msg.Operation = deleteMessage (sampleState 1).e.Cursor ∧
      Content (performOperation sampleExternals false OperationDelete 'X' (sampleState 1)).1.doc =
        Content (handleMsg sampleExternals msg (sampleState 3)).1.doc) ∧
    Content (performOperation sampleExternals false OperationInsert 'X' (sampleState 1)).1.doc
      = "AXBC" :=
  ⟨(local_edit_in_step sampleExternals false 'X' (sampleState 1) (sampleState 3)
      WellFormed_docABC WellFormed_docABC SingleRunes_docABC SingleRunes_docABC rfl
      (by decide) (by decide) rfl).1,
   (local_edit_in_step sampleExternals false 'X' (sampleState 1) (sampleState 3)
      WellFormed_docABC WellFormed_docABC SingleRunes_docABC SingleRunes_docABC rfl
      (by decide) (by decide) rfl).2,
   by decide⟩

end crdt
